import Mathlib

/-!
# elastigo: extraction of bucket aggregations (lib/coreaggregate.go)

A shallow embedding of `ExtractAggregates` and `extractAggBucket` together with
the properties of the extraction that the specification states.

Modelling conventions.

* A decoded `interface{}` value is a `Json` tree.  A JSON number is decoded by
  encoding/json into a float64; every finite float64 is a rational number and
  JSON has no NaN or infinity, so `Json.num` carries the exact value as a `ℚ`.
* A Go `map[string]interface{}` is the list of its entries.  Lookup (`m[k]`)
  goes by key; `range` visits the entries in the order of the list.  The order
  of the list therefore stands for the iteration order that the Go runtime
  happened to choose in one run, and the keys of a map are pairwise distinct
  (`Json.WellKeyed`).
* A failed unchecked type assertion (`x.(T)`) panics: functions that can panic
  return `Except Panic _`.
* `int(f)` for a float64 `f` truncates towards zero when the result fits into
  an `int`; otherwise the result is implementation-dependent, which is what
  the `Platform` parameter records.
-/

namespace Elastigo

/-- A value decoded by encoding/json into an `interface{}`. -/
inductive Json where
  | null
  | bool (b : Bool)
  | num (q : ℚ)
  | str (s : String)
  | arr (xs : List Json)
  | obj (kvs : List (String × Json))

/-- The run-time panics of `extractAggBucket`: the two unchecked type
assertions `k.(string)` and `cnt.(float64)` of line 69. -/
inductive Panic where
  | keyNotString
  | docCountNotFloat64
deriving DecidableEq, Repr

/-- The error of `json.Unmarshal`: the bytes are not JSON text, or the JSON
value cannot be stored into a `map[string]interface{}`. -/
inductive DecodeError where
  | syntaxError
  | unmarshalTypeError
deriving DecidableEq, Repr

/-- What is implementation-dependent in the conversion `int(f)`: the width of
`int` in bits (32 or 64) and the value produced when the truncated float does
not fit. -/
structure Platform where
  intBits : Nat
  convOverflow : ℚ → Int

/-- The Go toolchain on amd64: 64-bit `int`; an out-of-range conversion yields
the "integer indefinite" value `-2^63` (CVTTSD2SQ). -/
def amd64 : Platform := ⟨64, fun _ => -9223372036854775808⟩

/-- Truncation towards zero: the fraction is discarded. -/
def truncToZero (q : ℚ) : Int := if 0 ≤ q then ⌊q⌋ else ⌈q⌉

/-- Whether `z` is representable by an `int` of the platform. -/
def Platform.fits (P : Platform) (z : Int) : Prop :=
  -(2 ^ (P.intBits - 1) : Int) ≤ z ∧ z < (2 ^ (P.intBits - 1) : Int)

instance (P : Platform) (z : Int) : Decidable (P.fits z) := by
  unfold Platform.fits; infer_instance

/-- The conversion `int(cnt.(float64))` once `cnt` is known to be a float64. -/
def intOfFloat64 (P : Platform) (q : ℚ) : Int :=
  if P.fits (truncToZero q) then truncToZero q else P.convOverflow q

/-- The Go type `map[string]int` of `AggregateBucket.KeyCount`: the entries,
with pairwise distinct keys. -/
abbrev KeyCount := List (String × Int)

/-- The map without its entry for `k`, if it has one. -/
def KeyCount.erase : KeyCount → String → KeyCount
  | [], _ => []
  | (a, b) :: m, k => if a = k then KeyCount.erase m k else (a, b) :: KeyCount.erase m k

/-- The assignment `m[k] = v` on a `map[string]int`: the entry for `k` is
created, or replaced when there is one. -/
def KeyCount.set (m : KeyCount) (k : String) (v : Int) : KeyCount :=
  (k, v) :: m.erase k

/-- AggregateBucket holds information about a bucket-type aggregate as returned
by an ES query. -/
structure AggregateBucket where
  Name : String
  KeyCount : KeyCount
deriving DecidableEq, Repr

/-- Body of the loop `for _, kdc := range ar` (lines 65-73) on the map built so
far: checked assertion on the element, the two checked lookups, then the two
unchecked assertions and the store. `k.(string)` is evaluated before
`cnt.(float64)`. -/
def storeBucket (P : Platform) (kc : KeyCount) (kdc : Json) : Except Panic KeyCount :=
  match kdc with
  | .obj mkdc =>
    match mkdc.lookup "key" with
    | some k =>
      match mkdc.lookup "doc_count" with
      | some cnt =>
        match k with
        | .str s =>
          match cnt with
          | .num d => .ok (kc.set s (intOfFloat64 P d))
          | _ => .error .docCountNotFloat64
        | _ => .error .keyNotString
      | none => .ok kc
    | none => .ok kc
  | _ => .ok kc

/-- The loop `for _, kdc := range ar` of lines 65-73. -/
def rangeAr (P : Platform) (kc : KeyCount) : List Json → Except Panic KeyCount
  | [] => .ok kc
  | kdc :: rest =>
    match storeBucket P kc kdc with
    | .ok kc1 => rangeAr P kc1 rest
    | .error e => .error e

mutual
/-- The function `extractAggBucket` of lines 39-76. -/
def extractAggBucket (P : Platform) (k : String) : Json → Except Panic AggregateBucket
  | .obj vm =>
    match vm.lookup "buckets" with
    | none => rangeVm P k vm
    | some buck =>
      match buck with
      | .arr ar =>
        match rangeAr P [] ar with
        | .ok kc => .ok ⟨k, kc⟩
        | .error e => .error e
      | _ => .ok ⟨k, []⟩
  | _ => .ok ⟨k, []⟩
/-- The loop `for k, v := range vm` of lines 53-59, followed by `return agg`
(line 60); `k0` is the name of `agg`. -/
def rangeVm (P : Platform) (k0 : String) : List (String × Json) → Except Panic AggregateBucket
  | [] => .ok ⟨k0, []⟩
  | (k, v) :: rest =>
    if k = "doc_count" then rangeVm P k0 rest else extractAggBucket P k v
end

/-- The bytes of `sr.Aggregations` as encoding/json reads them: not JSON text
(the empty input included); JSON text with a number literal that no float64
can hold, such as 1e999; or the text of the JSON value that decodes to `j`. -/
inductive RawMessage where
  | malformed
  | overflowing
  | wellFormed (j : Json)

/-- The field of `SearchResult` that `ExtractAggregates` reads. -/
structure SearchResult where
  Aggregations : RawMessage

/-- The call `json.Unmarshal(sr.Aggregations, &m)` with
`m : map[string]interface{}`, initially nil: an object fills the map, `null`
leaves the nil map and is no error, any other value is an
`UnmarshalTypeError`, and so is a number that overflows float64. A nil map is
the empty list. -/
def unmarshal : RawMessage → Except DecodeError (List (String × Json))
  | .malformed => .error .syntaxError
  | .overflowing => .error .unmarshalTypeError
  | .wellFormed (.obj m) => .ok m
  | .wellFormed .null => .ok []
  | .wellFormed _ => .error .unmarshalTypeError

/-- The loop `for k, v := range m` of lines 30-35; `aggs` is the slice built
so far. -/
def rangeM (P : Platform) (aggs : List AggregateBucket) :
    List (String × Json) → Except Panic (List AggregateBucket)
  | [] => .ok aggs
  | (k, v) :: rest =>
    match extractAggBucket P k v with
    | .ok bucket =>
      if bucket.KeyCount.length > 0 then rangeM P (aggs ++ [bucket]) rest
      else rangeM P aggs rest
    | .error e => .error e

/-- The function `ExtractAggregates` of lines 21-37. The result pair is Go's
`([]*AggregateBucket, error)`; the nil slice is the empty list. -/
def ExtractAggregates (P : Platform) (sr : SearchResult) :
    Except Panic (List AggregateBucket × Option DecodeError) :=
  match unmarshal sr.Aggregations with
  | .error err => .ok ([], some err)
  | .ok m =>
    match rangeM P [] m with
    | .ok aggs => .ok (aggs, none)
    | .error e => .error e

/-- The map after a sequence of assignments `m[k] = v`, in order. -/
def KeyCount.setAll (m : KeyCount) (es : List (String × Int)) : KeyCount :=
  es.foldl (fun m p => m.set p.1 p.2) m

/-- A `"buckets"` element `e` (an object, given by its fields) has the string
`p.1` under `"key"` and the number `p.2` under `"doc_count"`. -/
def IsEntry (e : List (String × Json)) (p : String × ℚ) : Prop :=
  e.lookup "key" = some (.str p.1) ∧ e.lookup "doc_count" = some (.num p.2)

/-- The value `v` is a simple bucket aggregation: an object whose `"buckets"`
is an array of objects, the i-th of which has the string `pairs[i].1` under
`"key"` and the number `pairs[i].2` under `"doc_count"`. -/
def IsSimpleAgg (v : Json) (pairs : List (String × ℚ)) : Prop :=
  ∃ vm elems, v = .obj vm ∧ vm.lookup "buckets" = some (.arr (elems.map Json.obj)) ∧
    List.Forall₂ IsEntry elems pairs

/-- The element `e` of a `"buckets"` array does not make line 69 panic: whenever
it is an object that has both `"key"` and `"doc_count"`, the former is a string
and the latter a number. -/
def Tolerated (e : Json) : Prop :=
  ∀ f k c, e = .obj f → f.lookup "key" = some k → f.lookup "doc_count" = some c →
    (∃ s, k = .str s) ∧ (∃ d, c = .num d)

/-- The element `e` of a `"buckets"` array is not an object with the string `s`
under `"key"`. -/
def NotKeyed (s : String) (e : Json) : Prop :=
  ∀ f, e = .obj f → f.lookup "key" ≠ some (.str s)

mutual
/-- Every object that occurs in the value, the value itself included,
satisfies `p` (given the entries of the object). -/
def Json.AllObj (p : List (String × Json) → Prop) : Json → Prop
  | .obj kvs => p kvs ∧ Json.AllObjFields p kvs
  | .arr xs => Json.AllObjElems p xs
  | _ => True
/-- `Json.AllObj` for the values of the entries of an object. -/
def Json.AllObjFields (p : List (String × Json) → Prop) : List (String × Json) → Prop
  | [] => True
  | (_, v) :: rest => Json.AllObj p v ∧ Json.AllObjFields p rest
/-- `Json.AllObj` for the elements of an array. -/
def Json.AllObjElems (p : List (String × Json) → Prop) : List Json → Prop
  | [] => True
  | x :: rest => Json.AllObj p x ∧ Json.AllObjElems p rest
end

/-- Every `"doc_count"` of the value that is a number is not negative and its
integer part fits an `int`. -/
def Json.CountsOk (P : Platform) (j : Json) : Prop :=
  j.AllObj (fun f => ∀ d, f.lookup "doc_count" = some (.num d) → 0 ≤ d ∧ P.fits (truncToZero d))

/-- The object with entries `vm` is a wrapper around `v`: it has no `"buckets"`
key and, apart from `"doc_count"`, the one key `inner`, whose value is `v`. -/
def IsWrapper (vm : List (String × Json)) (inner : String) (v : Json) : Prop :=
  vm.lookup "buckets" = none ∧ inner ≠ "doc_count" ∧ vm.lookup inner = some v ∧
    ∀ p ∈ vm, p.1 = "doc_count" ∨ p.1 = inner

/-- The value `v` sits in `value` under one or more nested wrappers, the
innermost of which has the key `inner`. -/
inductive Wraps : Json → String → Json → Prop where
  | one (vm : List (String × Json)) (inner : String) (v : Json) :
      IsWrapper vm inner v → Wraps (.obj vm) inner v
  | step (vm : List (String × Json)) (k : String) (w : Json) (inner : String) (v : Json) :
      IsWrapper vm k w → Wraps w inner v → Wraps (.obj vm) inner v

/-- The keys of every object of the value are pairwise distinct, as the keys of
a Go map are. -/
def Json.WellKeyed (j : Json) : Prop :=
  j.AllObj (fun f => (f.map Prod.fst).Nodup)

/-- At most one of the keys is other than `"doc_count"`. -/
def AtMostOneInner (ks : List String) : Prop :=
  ∀ a ∈ ks, ∀ b ∈ ks, a ≠ "doc_count" → b ≠ "doc_count" → a = b

mutual
/-- The value, taken as the value of an aggregation, leaves `extractAggBucket`
no choice: it is not an object, or has `"buckets"`, or is a wrapper with at
most one key other than `"doc_count"` whose value again leaves no choice. -/
def Json.Unambiguous : Json → Prop
  | .obj vm => "buckets" ∈ vm.map Prod.fst ∨
      (AtMostOneInner (vm.map Prod.fst) ∧ Json.UnambiguousFields vm)
  | _ => True
/-- `Json.Unambiguous` for the values of the entries of a wrapper other than
`"doc_count"`. -/
def Json.UnambiguousFields : List (String × Json) → Prop
  | [] => True
  | (k, v) :: rest => (k ≠ "doc_count" → Json.Unambiguous v) ∧ Json.UnambiguousFields rest
end

/-- Every top-level aggregation of the decoded document is unambiguous. -/
def Json.UnambiguousAggs : Json → Prop
  | .obj m => ∀ kv ∈ m, Json.Unambiguous kv.2
  | _ => True

/-- Two runs see the same decoded value: the trees differ at most in the order
of the entries of their objects, that is in the order in which `range` visits
the maps. Generated by a permutation of the entries of an object and by a
reordering inside one field of an object or one element of an array. -/
inductive Json.Reorder : Json → Json → Prop where
  | refl (j : Json) : Json.Reorder j j
  | trans (a b c : Json) : Json.Reorder a b → Json.Reorder b c → Json.Reorder a c
  | perm (l1 l2 : List (String × Json)) : l1.Perm l2 → Json.Reorder (.obj l1) (.obj l2)
  | field (pre post : List (String × Json)) (k : String) (v w : Json) :
      Json.Reorder v w →
      Json.Reorder (.obj (pre ++ (k, v) :: post)) (.obj (pre ++ (k, w) :: post))
  | elem (pre post : List Json) (v w : Json) :
      Json.Reorder v w → Json.Reorder (.arr (pre ++ v :: post)) (.arr (pre ++ w :: post))

/-- Two outcomes of `ExtractAggregates` are the same result set: both return,
the same error and the same buckets up to the order of the list, or both
panic. -/
def SameResult :
    Except Panic (List AggregateBucket × Option DecodeError) →
    Except Panic (List AggregateBucket × Option DecodeError) → Prop
  | .ok r1, .ok r2 => r1.1.Perm r2.1 ∧ r1.2 = r2.2
  | .error _, .error _ => True
  | _, _ => False

/-- The outcome of the assertion `k.(string)`. -/
def keyOf : Json → Option String
  | .str s => some s
  | _ => none

/-- The outcome of the assertion `cnt.(float64)`. -/
def countOf : Json → Option ℚ
  | .num d => some d
  | _ => none

/-- The outcome of the assertion `buck.([]interface{})` followed by the loop
over the array. -/
def loopOf (P : Platform) (kc : KeyCount) : Json → Option (Except Panic KeyCount)
  | .arr ar => some (rangeAr P kc ar)
  | _ => none

/-- Two outcomes of the loop over the top-level map are the same up to the
order of the list. -/
def SameList : Except Panic (List AggregateBucket) → Except Panic (List AggregateBucket) → Prop
  | .ok a, .ok b => a.Perm b
  | .error _, .error _ => True
  | _, _ => False

/-- What the extraction can observe of the values `v` and `w` is the same, in
every position in which a value is used: as a `"key"`, as a `"doc_count"`, as
an element of a `"buckets"` array, as a `"buckets"` value, as the value of an
aggregation when it is unambiguous, and as the whole document when its
aggregations are unambiguous. -/
def Indistinguishable (P : Platform) (v w : Json) : Prop :=
  keyOf v = keyOf w ∧ countOf v = countOf w ∧
  (∀ kc, storeBucket P kc v = storeBucket P kc w) ∧
  (∀ kc, loopOf P kc v = loopOf P kc w) ∧
  (v.Unambiguous →
    w.Unambiguous ∧ ∀ name, extractAggBucket P name v = extractAggBucket P name w) ∧
  (v.UnambiguousAggs → w.UnambiguousAggs ∧
    SameResult (ExtractAggregates P ⟨.wellFormed v⟩) (ExtractAggregates P ⟨.wellFormed w⟩))

/-- The entry at which the loop `for k, v := range vm` returns: the first one
whose key is not `"doc_count"`. -/
def firstInner : List (String × Json) → Option (String × Json)
  | [] => none
  | (k, v) :: rest => if k = "doc_count" then firstInner rest else some (k, v)

mutual
/-- The nesting depth of a value: 0 for null, booleans, numbers and strings,
one more than the deepest element or field value for arrays and objects. -/
def Json.depth : Json → Nat
  | .obj kvs => 1 + Json.depthFields kvs
  | .arr xs => 1 + Json.depthElems xs
  | _ => 0
/-- The depth of the deepest value among the entries of an object. -/
def Json.depthFields : List (String × Json) → Nat
  | [] => 0
  | (_, v) :: rest => max (Json.depth v) (Json.depthFields rest)
/-- The depth of the deepest element of an array. -/
def Json.depthElems : List Json → Nat
  | [] => 0
  | x :: rest => max (Json.depth x) (Json.depthElems rest)
end

/-- The arguments of the recursive call that `extractAggBucket` makes on the
value `v` (line 58), if it makes one. -/
def nextCall : Json → Option (String × Json)
  | .obj vm =>
    match vm.lookup "buckets" with
    | none => firstInner vm
    | some _ => none
  | _ => none

/-- The function `extractAggBucket` as Go runs it, by general recursion, with a
budget `n` for the depth of the calls: `none` when the budget is used up before
the function returns. -/
def extractAggBucketFuel (P : Platform) :
    Nat → String → Json → Option (Except Panic AggregateBucket)
  | 0, _, _ => none
  | n + 1, k, v =>
    match v with
    | .obj vm =>
      match vm.lookup "buckets" with
      | none =>
        match firstInner vm with
        | some kv => extractAggBucketFuel P n kv.1 kv.2
        | none => some (.ok ⟨k, []⟩)
      | some buck =>
        match buck with
        | .arr ar =>
          match rangeAr P [] ar with
          | .ok kc => some (.ok ⟨k, kc⟩)
          | .error e => some (.error e)
        | _ => some (.ok ⟨k, []⟩)
    | _ => some (.ok ⟨k, []⟩)

/-- The bucket normalizer applied to each top-level (name, value) pair, in the
order of the pairs; stops at the first panic. -/
def normalizeAll (P : Platform) : List (String × Json) → Except Panic (List AggregateBucket)
  | [] => .ok []
  | (k, v) :: rest =>
    match extractAggBucket P k v with
    | .error e => .error e
    | .ok b =>
      match normalizeAll P rest with
      | .error e => .error e
      | .ok bs => .ok (b :: bs)

/-- The list that the specification describes for a top-level object `m`: the
results of the bucket normalizer over the pairs of `m`, restricted to those
whose `KeyCount` is non-empty. -/
def collectNonEmpty (P : Platform) (m : List (String × Json)) :
    Except Panic (List AggregateBucket × Option DecodeError) :=
  match normalizeAll P m with
  | .ok bs => .ok (bs.filter (fun b => decide (0 < b.KeyCount.length)), none)
  | .error e => .error e

/-- The element of a `"buckets"` array is passed over by the checked
assertions of lines 66-68: it is not an object, or it lacks `"key"`, or it
lacks `"doc_count"`. -/
def isSkipped : Json → Bool
  | .obj f => (f.lookup "key").isNone || (f.lookup "doc_count").isNone
  | _ => true

/-! ## Auxiliary facts -/

theorem truncToZero_intCast (n : Int) : truncToZero (n : ℚ) = n := by
  unfold truncToZero; split <;> simp

theorem truncToZero_natCast (n : Nat) : truncToZero (n : ℚ) = n := by
  have := truncToZero_intCast (n : Int)
  simpa using this

theorem truncToZero_of_nonneg {q : ℚ} (h : 0 ≤ q) : truncToZero q = ⌊q⌋ := by
  simp [truncToZero, h]

theorem truncToZero_of_neg {q : ℚ} (h : q < 0) : truncToZero q = ⌈q⌉ := by
  simp [truncToZero, not_le.mpr h]

theorem truncToZero_nonneg {q : ℚ} (h : 0 ≤ q) : 0 ≤ truncToZero q := by
  rw [truncToZero_of_nonneg h]; exact Int.floor_nonneg.mpr h

theorem intOfFloat64_of_fits (P : Platform) (q : ℚ) (h : P.fits (truncToZero q)) :
    intOfFloat64 P q = truncToZero q := by
  simp [intOfFloat64, h]

theorem fits_of_nat_lt (P : Platform) (n : Nat) (h : (n : Int) < 2 ^ (P.intBits - 1)) :
    P.fits (n : Int) := by
  refine ⟨?_, h⟩
  have h2 : (0 : Int) ≤ 2 ^ (P.intBits - 1) := by positivity
  have h3 : (0 : Int) ≤ (n : Int) := Int.ofNat_nonneg n
  linarith

theorem intOfFloat64_natCast (P : Platform) (n : Nat)
    (h : (n : Int) < 2 ^ (P.intBits - 1)) : intOfFloat64 P (n : ℚ) = n := by
  rw [intOfFloat64_of_fits] <;> rw [truncToZero_natCast]
  exact fits_of_nat_lt P n h

theorem lookup_cons_eq {β : Type} (k : String) (b : β) (m : List (String × β)) :
    List.lookup k ((k, b) :: m) = some b := by
  simp [List.lookup]

theorem lookup_cons_ne {β : Type} {key a : String} (h : key ≠ a) (b : β)
    (m : List (String × β)) : List.lookup key ((a, b) :: m) = List.lookup key m := by
  have : (key == a) = false := by simpa using h
  simp [List.lookup, this]

theorem lookup_cons_ite {β : Type} (key a : String) (b : β) (m : List (String × β)) :
    List.lookup key ((a, b) :: m) = if key = a then some b else List.lookup key m := by
  by_cases h : key = a
  · subst h; simp [lookup_cons_eq]
  · simp [h, lookup_cons_ne h]

theorem lookup_eq_some_iff_mem {β : Type} (l : List (String × β))
    (nd : (l.map Prod.fst).Nodup) (key : String) (v : β) :
    l.lookup key = some v ↔ (key, v) ∈ l := by
  induction l with
  | nil => simp
  | cons p l ih =>
    obtain ⟨a, b⟩ := p
    simp only [List.map_cons, List.nodup_cons] at nd
    rw [lookup_cons_ite]
    by_cases h : key = a
    · subst h
      simp only [if_true, Option.some.injEq, List.mem_cons, Prod.mk.injEq, true_and]
      constructor
      · intro hb; exact Or.inl hb.symm
      · rintro (hb | hm)
        · exact hb.symm
        · exact absurd (List.mem_map_of_mem Prod.fst hm) nd.1
    · simp only [h, if_false, List.mem_cons, Prod.mk.injEq, false_and, false_or]
      exact ih nd.2

theorem KeyCount.lookup_erase (m : KeyCount) (k key : String) :
    (m.erase k).lookup key = if key = k then none else m.lookup key := by
  induction m with
  | nil => simp [KeyCount.erase]
  | cons p m ih =>
    obtain ⟨a, b⟩ := p
    by_cases hak : a = k
    · subst hak
      by_cases hk : key = a
      · subst hk; simpa [KeyCount.erase] using ih
      · simp [KeyCount.erase, ih, hk, lookup_cons_ne hk]
    · by_cases hka : key = a
      · subst hka
        simp [KeyCount.erase, hak, lookup_cons_eq]
      · simp [KeyCount.erase, hak, lookup_cons_ne hka, ih]

theorem KeyCount.lookup_set (m : KeyCount) (k : String) (v : Int) (key : String) :
    (m.set k v).lookup key = if key = k then some v else m.lookup key := by
  unfold KeyCount.set
  by_cases hk : key = k
  · subst hk; simp [lookup_cons_eq]
  · simp [lookup_cons_ne hk, KeyCount.lookup_erase, hk]

theorem KeyCount.setAll_append (m : KeyCount) (es fs : List (String × Int)) :
    m.setAll (es ++ fs) = (m.setAll es).setAll fs := by
  simp [KeyCount.setAll, List.foldl_append]

/-- After a sequence of assignments the last assignment to a key is the one
that is found; keys that were not assigned keep their entry. -/
theorem KeyCount.lookup_setAll (es : List (String × Int)) (m : KeyCount) (key : String) :
    (m.setAll es).lookup key =
      match es.reverse.lookup key with
      | some v => some v
      | none => m.lookup key := by
  induction es using List.reverseRecOn with
  | nil => simp [KeyCount.setAll]
  | append_singleton es p ih =>
    obtain ⟨a, b⟩ := p
    rw [KeyCount.setAll_append, List.reverse_append]
    simp only [List.reverse_cons, List.reverse_nil, List.nil_append, List.singleton_append]
    rw [lookup_cons_ite]
    have : (m.setAll es).setAll [(a, b)] = (m.setAll es).set a b := by
      simp [KeyCount.setAll]
    rw [this, KeyCount.lookup_set]
    by_cases h : key = a
    · simp [h]
    · simp [h, ih]

/-- On an array of well-typed elements the loop performs the assignments
`KeyCount[key] = int(doc_count)` in array order and does not panic. -/
theorem rangeAr_entries (P : Platform) (elems : List (List (String × Json)))
    (pairs : List (String × ℚ)) (h : List.Forall₂ IsEntry elems pairs) (kc : KeyCount) :
    rangeAr P kc (elems.map Json.obj) =
      .ok (kc.setAll (pairs.map (fun p => (p.1, intOfFloat64 P p.2)))) := by
  induction h generalizing kc with
  | nil => simp [rangeAr, KeyCount.setAll]
  | cons hep _ ih =>
    obtain ⟨hk, hd⟩ := hep
    simp only [List.map_cons, rangeAr, storeBucket, hk, hd]
    rw [ih]
    simp [KeyCount.setAll]

theorem KeyCount.erase_of_not_mem (m : KeyCount) (k : String)
    (h : k ∉ m.map Prod.fst) : m.erase k = m := by
  induction m with
  | nil => rfl
  | cons p m ih =>
    obtain ⟨a, b⟩ := p
    simp only [List.map_cons, List.mem_cons, not_or] at h
    have ha : ¬ a = k := fun e => h.1 e.symm
    simp [KeyCount.erase, ha, ih h.2]

/-- Assignments to pairwise distinct keys that the map does not have yet only
add entries. -/
theorem KeyCount.setAll_fresh (es : List (String × Int)) (m : KeyCount)
    (nd : (es.map Prod.fst).Nodup)
    (hdis : ∀ k ∈ es.map Prod.fst, k ∉ m.map Prod.fst) :
    m.setAll es = es.reverse ++ m := by
  induction es generalizing m with
  | nil => simp [KeyCount.setAll]
  | cons p es ih =>
    obtain ⟨a, b⟩ := p
    simp only [List.map_cons, List.nodup_cons] at nd
    have hstep : m.setAll ((a, b) :: es) = (m.set a b).setAll es := by
      simp [KeyCount.setAll]
    have ha : a ∉ m.map Prod.fst := hdis a (by simp)
    rw [hstep, ih (m.set a b) nd.2]
    · simp [KeyCount.set, KeyCount.erase_of_not_mem m a ha]
    · intro k hk
      simp only [KeyCount.set, KeyCount.erase_of_not_mem m a ha, List.map_cons, List.mem_cons,
        not_or]
      refine ⟨?_, hdis k (by simp [hk])⟩
      rintro rfl
      exact nd.1 hk

theorem extractAggBucket_buckets_arr (P : Platform) (name : String)
    (vm : List (String × Json)) (ar : List Json)
    (hb : vm.lookup "buckets" = some (.arr ar)) :
    extractAggBucket P name (.obj vm) =
      match rangeAr P [] ar with
      | .ok kc => .ok ⟨name, kc⟩
      | .error e => .error e := by
  simp [extractAggBucket, hb]

/-! ## C1 -/

/-- C1, as amended: for every name and every object value whose "buckets" is an
array of objects with a string "key" and a non-negative integer-valued
"doc_count" below 2^(intBits-1), with pairwise distinct keys,
extractAggBucket returns a bucket named name whose KeyCount has exactly the keys
of the array, each mapped to its doc_count (and as many entries as the array has
elements). -/
theorem extractAggBucket_simple_buckets (P : Platform) (name : String)
    (vm : List (String × Json)) (elems : List (List (String × Json)))
    (pairs : List (String × Nat))
    (hb : vm.lookup "buckets" = some (.arr (elems.map Json.obj)))
    (hel : List.Forall₂ IsEntry elems (pairs.map (fun p => (p.1, (p.2 : ℚ)))))
    (hnd : (pairs.map Prod.fst).Nodup)
    (hfit : ∀ p ∈ pairs, (p.2 : Int) < 2 ^ (P.intBits - 1)) :
    ∃ b, extractAggBucket P name (.obj vm) = .ok b ∧ b.Name = name ∧
      b.KeyCount.length = pairs.length ∧
      ∀ key n, b.KeyCount.lookup key = some n ↔ ∃ c : Nat, (key, c) ∈ pairs ∧ n = c := by
  rw [extractAggBucket_buckets_arr P name vm _ hb, rangeAr_entries P elems _ hel]
  have hmap : (pairs.map (fun p => (p.1, (p.2 : ℚ)))).map (fun p => (p.1, intOfFloat64 P p.2))
      = pairs.map (fun p => (p.1, (p.2 : Int))) := by
    rw [List.map_map]
    apply List.map_congr_left
    intro p hp
    simp [intOfFloat64_natCast P p.2 (hfit p hp)]
  have hfst : (pairs.map (fun p => (p.1, (p.2 : Int)))).map Prod.fst = pairs.map Prod.fst := by
    rw [List.map_map]; rfl
  have hall : KeyCount.setAll [] (pairs.map (fun p => (p.1, (p.2 : Int))))
      = (pairs.map (fun p => (p.1, (p.2 : Int)))).reverse := by
    rw [KeyCount.setAll_fresh _ [] (by rw [hfst]; exact hnd) (by simp)]
    simp
  have hnd2 : (((pairs.map (fun p => (p.1, (p.2 : Int)))).reverse).map Prod.fst).Nodup := by
    rw [List.map_reverse, List.nodup_reverse, hfst]
    exact hnd
  refine ⟨_, rfl, rfl, ?_, ?_⟩
  · simp only [hmap, hall, List.length_reverse, List.length_map]
  · intro key n
    simp only [hmap, hall]
    rw [lookup_eq_some_iff_mem _ hnd2, List.mem_reverse, List.mem_map]
    constructor
    · rintro ⟨⟨k1, c1⟩, hmem, heq⟩
      simp only [Prod.mk.injEq] at heq
      obtain ⟨rfl, rfl⟩ := heq
      exact ⟨c1, hmem, rfl⟩
    · rintro ⟨c, hc, rfl⟩
      exact ⟨(key, c), hc, rfl⟩

/-- C1 at the input of the specification: value
{"buckets":[{"key":"bass","doc_count":1},{"key":"drum","doc_count":1}]} under
the name "tags" gives Name "tags" and KeyCount {bass:1, drum:1}. -/
theorem extractAggBucket_simple_buckets_witness :
    ∃ b, extractAggBucket amd64 "tags" (.obj [("buckets", .arr
        ([[("key", .str "bass"), ("doc_count", .num 1)],
          [("key", .str "drum"), ("doc_count", .num 1)]].map Json.obj))]) = .ok b ∧
      b.Name = "tags" ∧ b.KeyCount.length = [("bass", 1), ("drum", 1)].length ∧
      ∀ key n, b.KeyCount.lookup key = some n ↔
        ∃ c : Nat, (key, c) ∈ [("bass", 1), ("drum", 1)] ∧ n = c :=
  extractAggBucket_simple_buckets amd64 "tags" _
    [[("key", .str "bass"), ("doc_count", .num 1)],
      [("key", .str "drum"), ("doc_count", .num 1)]] [("bass", 1), ("drum", 1)]
    (by simp [List.lookup])
    (by simp [IsEntry, List.lookup])
    (by simp)
    (by simp [amd64])

/-- C1 as stated fails: the integer-valued doc_count 9223372036854775808 (2^63)
is not representable by an int; on amd64 the count stored for "bass" is
-9223372036854775808, not the doc_count. -/
theorem extractAggBucket_simple_buckets_overflow :
    extractAggBucket amd64 "tags" (.obj [("buckets", .arr
        [.obj [("key", .str "bass"), ("doc_count", .num 9223372036854775808)]])])
      = .ok ⟨"tags", [("bass", -9223372036854775808)]⟩ ∧
    List.lookup "bass" [("bass", (-9223372036854775808 : Int))] ≠ some 9223372036854775808 := by
  constructor
  · simp [extractAggBucket, rangeAr, storeBucket, List.lookup, KeyCount.set, KeyCount.erase,
      intOfFloat64, truncToZero, Platform.fits, amd64]
  · simp [List.lookup]

/-! ## C2 -/

/-- C2 on the code: the element {"key":1,"doc_count":1} has a "key" that is
not a string. The unchecked assertion k.(string) panics, in extractAggBucket and
so in ExtractAggregates, whereas with that element removed from the array both
return normally (the bucket {bass:2}). -/
theorem extractAggBucket_mistyped_key_panics :
    extractAggBucket amd64 "tags" (.obj [("buckets", .arr
        [.obj [("key", .num 1), ("doc_count", .num 1)],
         .obj [("key", .str "bass"), ("doc_count", .num 2)]])])
      = .error .keyNotString ∧
    ExtractAggregates amd64 ⟨.wellFormed (.obj [("tags", .obj [("buckets", .arr
        [.obj [("key", .num 1), ("doc_count", .num 1)],
         .obj [("key", .str "bass"), ("doc_count", .num 2)]])])])⟩
      = .error .keyNotString ∧
    extractAggBucket amd64 "tags" (.obj [("buckets", .arr
        [.obj [("key", .str "bass"), ("doc_count", .num 2)]])])
      = .ok ⟨"tags", [("bass", 2)]⟩ ∧
    ExtractAggregates amd64 ⟨.wellFormed (.obj [("tags", .obj [("buckets", .arr
        [.obj [("key", .str "bass"), ("doc_count", .num 2)]])])])⟩
      = .ok ([⟨"tags", [("bass", 2)]⟩], none) := by
  refine ⟨?_, ?_, ?_, ?_⟩ <;>
  simp [ExtractAggregates, unmarshal, rangeM, extractAggBucket, rangeAr, storeBucket,
    List.lookup, KeyCount.set, KeyCount.erase, intOfFloat64, truncToZero, Platform.fits, amd64]

/-! ## C3 -/

/-- The loop over a wrapper returns at the first key other than "doc_count". -/
theorem rangeVm_eq_of_only (P : Platform) (name inner : String) (v : Json)
    (hne : inner ≠ "doc_count") (vm : List (String × Json))
    (hin : vm.lookup inner = some v)
    (honly : ∀ p ∈ vm, p.1 = "doc_count" ∨ p.1 = inner) :
    rangeVm P name vm = extractAggBucket P inner v := by
  induction vm with
  | nil => simp at hin
  | cons p vm ih =>
    obtain ⟨a, b⟩ := p
    rw [lookup_cons_ite] at hin
    rcases honly (a, b) (by simp) with h | h
    · simp only at h
      subst h
      simp only [hne, if_false] at hin
      simp only [rangeVm, if_true]
      exact ih hin (fun p hp => honly p (List.mem_cons_of_mem _ hp))
    · simp only at h
      subst h
      simp only [if_true, Option.some.injEq] at hin
      subst hin
      simp [rangeVm, hne]

/-- C3: for every name and every object value without a "buckets" key whose
only key other than "doc_count" is inner, extractAggBucket(name, value) equals
extractAggBucket(inner, value[inner]). -/
theorem extractAggBucket_unwrap (P : Platform) (name inner : String)
    (vm : List (String × Json)) (v : Json)
    (hb : vm.lookup "buckets" = none)
    (hne : inner ≠ "doc_count")
    (hin : vm.lookup inner = some v)
    (honly : ∀ p ∈ vm, p.1 = "doc_count" ∨ p.1 = inner) :
    extractAggBucket P name (.obj vm) = extractAggBucket P inner v := by
  rw [extractAggBucket, hb]
  exact rangeVm_eq_of_only P name inner v hne vm hin honly

/-- C3 at the input of the specification: under the name "tags" the value
{"filtered":{"buckets":[{"key":"bass","doc_count":1}]}} gives what
extractAggBucket gives for "filtered" and the inner value, the bucket named
"filtered" with KeyCount {bass:1}. -/
theorem extractAggBucket_unwrap_witness :
    extractAggBucket amd64 "tags" (.obj [("filtered", .obj [("buckets", .arr
        [.obj [("key", .str "bass"), ("doc_count", .num 1)]])])])
      = extractAggBucket amd64 "filtered" (.obj [("buckets", .arr
        [.obj [("key", .str "bass"), ("doc_count", .num 1)]])]) ∧
    extractAggBucket amd64 "tags" (.obj [("filtered", .obj [("buckets", .arr
        [.obj [("key", .str "bass"), ("doc_count", .num 1)]])])])
      = .ok ⟨"filtered", [("bass", 1)]⟩ :=
  ⟨extractAggBucket_unwrap amd64 "tags" "filtered" _ _ (by simp [List.lookup]) (by decide)
      (by simp [List.lookup]) (by simp),
    by simp [extractAggBucket, rangeVm, rangeAr, storeBucket, List.lookup, KeyCount.set,
      KeyCount.erase, intOfFloat64, truncToZero, Platform.fits, amd64]⟩

/-! ## C4 -/

/-- The loop over the top-level map only appends buckets with a non-empty
KeyCount. -/
theorem rangeM_nonempty (P : Platform) (m : List (String × Json))
    (aggs out : List AggregateBucket)
    (hout : rangeM P aggs m = .ok out)
    (haggs : ∀ b ∈ aggs, b.KeyCount ≠ []) :
    ∀ b ∈ out, b.KeyCount ≠ [] := by
  induction m generalizing aggs with
  | nil =>
    simp only [rangeM, Except.ok.injEq] at hout
    subst hout
    exact haggs
  | cons p m ih =>
    obtain ⟨k, v⟩ := p
    simp only [rangeM] at hout
    cases hb : extractAggBucket P k v with
    | error e => simp [hb] at hout
    | ok bucket =>
      simp only [hb] at hout
      by_cases hlen : bucket.KeyCount.length > 0
      · simp only [hlen, if_true] at hout
        refine ih _ hout ?_
        intro b hbm
        rcases List.mem_append.mp hbm with h | h
        · exact haggs b h
        · simp only [List.mem_singleton] at h
          subst h
          exact List.ne_nil_of_length_pos hlen
      · simp only [hlen, if_false] at hout
        exact ih _ hout haggs

/-- C4: whenever ExtractAggregates returns, every bucket of the returned list
has a non-empty KeyCount. -/
theorem ExtractAggregates_no_empty_bucket (P : Platform) (sr : SearchResult)
    (aggs : List AggregateBucket) (err : Option DecodeError)
    (h : ExtractAggregates P sr = .ok (aggs, err)) :
    ∀ b ∈ aggs, b.KeyCount ≠ [] := by
  unfold ExtractAggregates at h
  cases hu : unmarshal sr.Aggregations with
  | error e =>
    simp only [hu, Except.ok.injEq, Prod.mk.injEq] at h
    intro b hb
    rw [← h.1] at hb
    simp at hb
  | ok m =>
    simp only [hu] at h
    cases hr : rangeM P [] m with
    | error e => simp [hr] at h
    | ok out =>
      simp only [hr, Except.ok.injEq, Prod.mk.injEq] at h
      rw [← h.1]
      exact rangeM_nonempty P m [] out hr (by simp)

/-- C4 at a concrete input: of {"tags":{"buckets":[{"key":"bass","doc_count":1}]},
"none":{"buckets":[]}} only the bucket "tags" is returned, and its KeyCount is
not empty. -/
theorem ExtractAggregates_no_empty_bucket_witness :
    ExtractAggregates amd64 ⟨.wellFormed (.obj
        [("tags", .obj [("buckets", .arr [.obj [("key", .str "bass"), ("doc_count", .num 1)]])]),
         ("none", .obj [("buckets", .arr [])])])⟩
      = .ok ([⟨"tags", [("bass", 1)]⟩], none) ∧
    ∀ b ∈ [(⟨"tags", [("bass", 1)]⟩ : AggregateBucket)], b.KeyCount ≠ [] :=
  have h : ExtractAggregates amd64 ⟨.wellFormed (.obj
        [("tags", .obj [("buckets", .arr [.obj [("key", .str "bass"), ("doc_count", .num 1)]])]),
         ("none", .obj [("buckets", .arr [])])])⟩
      = .ok ([⟨"tags", [("bass", 1)]⟩], none) := by
    simp [ExtractAggregates, unmarshal, rangeM, extractAggBucket, rangeAr, storeBucket,
      List.lookup, KeyCount.set, KeyCount.erase, intOfFloat64, truncToZero, Platform.fits, amd64]
  ⟨h, ExtractAggregates_no_empty_bucket amd64 _ _ _ h⟩

theorem lookup_map_snd {β γ : Type} (f : β → γ) (l : List (String × β)) (key : String) :
    (l.map (fun p => (p.1, f p.2))).lookup key = (l.lookup key).map f := by
  induction l with
  | nil => simp
  | cons p l ih =>
    obtain ⟨a, b⟩ := p
    simp only [List.map_cons, lookup_cons_ite]
    by_cases h : key = a
    · simp [h]
    · simp [h, ih]

theorem KeyCount.setAll_ne_nil (m : KeyCount) (es : List (String × Int)) (h : es ≠ []) :
    m.setAll es ≠ [] := by
  induction es using List.reverseRecOn with
  | nil => exact absurd rfl h
  | append_singleton es p _ =>
    rw [KeyCount.setAll_append]
    simp [KeyCount.setAll, KeyCount.set]

/-- A simple bucket aggregation is extracted without panic: the assignments
`KeyCount[key] = int(doc_count)` are made in array order. -/
theorem extractAggBucket_simpleAgg (P : Platform) (name : String) (v : Json)
    (pairs : List (String × ℚ)) (h : IsSimpleAgg v pairs) :
    extractAggBucket P name v =
      .ok ⟨name, KeyCount.setAll [] (pairs.map (fun p => (p.1, intOfFloat64 P p.2)))⟩ := by
  obtain ⟨vm, elems, rfl, hb, hel⟩ := h
  rw [extractAggBucket_buckets_arr P name vm _ hb, rangeAr_entries P elems _ hel]

theorem lookup_simpleAgg (P : Platform) (pairs : List (String × ℚ)) (key : String) :
    (KeyCount.setAll [] (pairs.map (fun p => (p.1, intOfFloat64 P p.2)))).lookup key =
      (pairs.reverse.lookup key).map (intOfFloat64 P) := by
  rw [KeyCount.lookup_setAll, ← List.map_reverse, lookup_map_snd]
  cases pairs.reverse.lookup key <;> simp

theorem rangeM_simple (P : Platform) (m : List (String × Json))
    (spec : List (List (String × ℚ)))
    (h : List.Forall₂ (fun kv pairs => IsSimpleAgg kv.2 pairs ∧ pairs ≠ []) m spec)
    (aggs : List AggregateBucket) :
    ∃ out, rangeM P aggs m = .ok (aggs ++ out) ∧ out.length = m.length ∧
      out.map (fun b => b.Name) = m.map Prod.fst ∧
      List.Forall₂ (fun b pairs => ∀ key, b.KeyCount.lookup key =
        (pairs.reverse.lookup key).map (intOfFloat64 P)) out spec := by
  induction h generalizing aggs with
  | nil => exact ⟨[], by simp [rangeM], rfl, rfl, List.Forall₂.nil⟩
  | @cons kv pairs m spec hhd _ ih =>
    obtain ⟨k, v⟩ := kv
    obtain ⟨hs, hne⟩ := hhd
    have hex := extractAggBucket_simpleAgg P k v pairs hs
    have hkc : KeyCount.setAll [] (pairs.map (fun p => (p.1, intOfFloat64 P p.2))) ≠ [] :=
      KeyCount.setAll_ne_nil _ _ (by simpa using hne)
    obtain ⟨out, hout, hlen, hnames, hall⟩ :=
      ih (aggs ++ [⟨k, KeyCount.setAll [] (pairs.map (fun p => (p.1, intOfFloat64 P p.2)))⟩])
    refine ⟨⟨k, KeyCount.setAll [] (pairs.map (fun p => (p.1, intOfFloat64 P p.2)))⟩ :: out,
      ?_, ?_, ?_, ?_⟩
    · simp only at hex
      simp only [rangeM, hex, gt_iff_lt, List.length_pos, ne_eq, hkc, not_false_eq_true, if_true]
      rw [hout]
      simp
    · simp [hlen]
    · simp [hnames]
    · exact List.Forall₂.cons (fun key => lookup_simpleAgg P pairs key) hall

/-! ## C5 -/

/-- C5, as amended: for every top-level object all of whose values are simple
bucket aggregations with a non-empty "buckets" array, ExtractAggregates returns
a nil error and exactly one bucket per top-level key: as many buckets as keys,
the names of the buckets are the top-level keys, and the KeyCount of the bucket
of a key maps every "key" of its array to int(doc_count) of the last element
with that "key" and has no other entry. -/
theorem ExtractAggregates_simple (P : Platform) (m : List (String × Json))
    (spec : List (List (String × ℚ)))
    (h : List.Forall₂ (fun kv pairs => IsSimpleAgg kv.2 pairs ∧ pairs ≠ []) m spec) :
    ∃ aggs, ExtractAggregates P ⟨.wellFormed (.obj m)⟩ = .ok (aggs, none) ∧
      aggs.length = m.length ∧ aggs.map (fun b => b.Name) = m.map Prod.fst ∧
      List.Forall₂ (fun b pairs => ∀ key, b.KeyCount.lookup key =
        (pairs.reverse.lookup key).map (intOfFloat64 P)) aggs spec := by
  obtain ⟨out, hout, hlen, hnames, hall⟩ := rangeM_simple P m spec h []
  refine ⟨out, ?_, hlen, hnames, hall⟩
  simp only [List.nil_append] at hout
  simp [ExtractAggregates, unmarshal, hout]

/-- C5 at the input of the specification:
{"tags":{"buckets":[{"key":"bass","doc_count":1},{"key":"drum","doc_count":1}]}}. -/
theorem ExtractAggregates_simple_witness :
    ∃ aggs, ExtractAggregates amd64 ⟨.wellFormed (.obj [("tags", .obj [("buckets", .arr
        [.obj [("key", .str "bass"), ("doc_count", .num 1)],
         .obj [("key", .str "drum"), ("doc_count", .num 1)]])])])⟩ = .ok (aggs, none) ∧
      aggs.length = 1 ∧ aggs.map (fun b => b.Name) = ["tags"] ∧
      List.Forall₂ (fun b pairs => ∀ key, b.KeyCount.lookup key =
        (pairs.reverse.lookup key).map (intOfFloat64 amd64)) aggs
        [[("bass", (1 : ℚ)), ("drum", 1)]] :=
  ExtractAggregates_simple amd64 _ [[("bass", 1), ("drum", 1)]]
    (List.Forall₂.cons
      ⟨⟨_, [[("key", .str "bass"), ("doc_count", .num 1)],
            [("key", .str "drum"), ("doc_count", .num 1)]], rfl,
          by simp [List.lookup], by simp [IsEntry, List.lookup]⟩, by simp⟩
      List.Forall₂.nil)

/-- C5 as stated fails: {"tags":{"buckets":[]}} is shaped as a simple bucket
aggregation and has one top-level key, and ExtractAggregates returns no
bucket. -/
theorem ExtractAggregates_simple_empty_dropped :
    IsSimpleAgg (.obj [("buckets", .arr [])]) [] ∧
    ExtractAggregates amd64 ⟨.wellFormed (.obj [("tags", .obj [("buckets", .arr [])])])⟩
      = .ok ([], none) ∧
    ([] : List AggregateBucket).length ≠ [("tags", Json.obj [("buckets", .arr [])])].length := by
  refine ⟨⟨_, [], rfl, by simp [List.lookup], List.Forall₂.nil⟩, ?_, by simp⟩
  simp [ExtractAggregates, unmarshal, rangeM, extractAggBucket, rangeAr, List.lookup]

/-! ## C6 -/

/-- C6, as amended: ExtractAggregates returns a decode error and the nil list
for input that is not JSON text, for JSON text with a number that overflows
float64, and for a JSON value that is neither an object nor null; for null it
returns the nil list and a nil error; for an object it returns a nil error
whenever it returns. -/
theorem ExtractAggregates_decode (P : Platform) :
    ExtractAggregates P ⟨.malformed⟩ = .ok ([], some .syntaxError) ∧
    ExtractAggregates P ⟨.overflowing⟩ = .ok ([], some .unmarshalTypeError) ∧
    (∀ j, (∀ m, j ≠ .obj m) → j ≠ .null →
      ExtractAggregates P ⟨.wellFormed j⟩ = .ok ([], some .unmarshalTypeError)) ∧
    ExtractAggregates P ⟨.wellFormed .null⟩ = .ok ([], none) ∧
    (∀ m aggs err, ExtractAggregates P ⟨.wellFormed (.obj m)⟩ = .ok (aggs, err) →
      err = none) := by
  refine ⟨rfl, rfl, ?_, rfl, ?_⟩
  · intro j hobj hnull
    cases j with
    | null => exact absurd rfl hnull
    | obj m => exact absurd rfl (hobj m)
    | bool b => rfl
    | num q => rfl
    | str s => rfl
    | arr xs => rfl
  · intro m aggs err h
    simp only [ExtractAggregates, unmarshal] at h
    cases hr : rangeM P [] m with
    | error e => simp [hr] at h
    | ok out =>
      simp only [hr, Except.ok.injEq, Prod.mk.injEq] at h
      exact h.2.symm

/-- C6 at the inputs of the specification: the bytes of "not json" are not JSON
text, and [1,2,3] is an array; both give a decode error and no bucket. -/
theorem ExtractAggregates_decode_witness :
    ExtractAggregates amd64 ⟨.malformed⟩ = .ok ([], some .syntaxError) ∧
    ExtractAggregates amd64 ⟨.wellFormed (.arr [.num 1, .num 2, .num 3])⟩
      = .ok ([], some .unmarshalTypeError) :=
  ⟨(ExtractAggregates_decode amd64).1,
    (ExtractAggregates_decode amd64).2.2.1 _ (fun _ h => Json.noConfusion h)
      (fun h => Json.noConfusion h)⟩

/-- C6 as stated fails: the JSON text null is valid JSON whose top level is not
an object, and ExtractAggregates returns a nil error. -/
theorem ExtractAggregates_null_no_error :
    ExtractAggregates amd64 ⟨.wellFormed .null⟩ = .ok ([], none) := rfl

theorem truncToZero_eq_of_nonneg {q : ℚ} {z : Int} (h0 : 0 ≤ q) (h1 : (z : ℚ) ≤ q)
    (h2 : q < (z : ℚ) + 1) : truncToZero q = z := by
  rw [truncToZero_of_nonneg h0]
  exact Int.floor_eq_iff.mpr ⟨h1, h2⟩

theorem truncToZero_eq_of_neg {q : ℚ} {z : Int} (h0 : q < 0) (h1 : (z : ℚ) - 1 < q)
    (h2 : q ≤ (z : ℚ)) : truncToZero q = z := by
  rw [truncToZero_of_neg h0]
  exact Int.ceil_eq_iff.mpr ⟨h1, h2⟩

theorem rangeAr_append (P : Platform) (xs ys : List Json) (kc : KeyCount) :
    rangeAr P kc (xs ++ ys) =
      match rangeAr P kc xs with
      | .ok kc1 => rangeAr P kc1 ys
      | .error e => .error e := by
  induction xs generalizing kc with
  | nil => simp [rangeAr]
  | cons x xs ih =>
    simp only [List.cons_append, rangeAr]
    cases storeBucket P kc x with
    | error e => rfl
    | ok kc1 => exact ih kc1

/-- A tolerated element is stored or skipped without panic, and the entries of
the keys it is not keyed by are left as they were. -/
theorem storeBucket_tolerated (P : Platform) (kc : KeyCount) (e : Json) (h : Tolerated e) :
    ∃ kc1, storeBucket P kc e = .ok kc1 ∧
      ∀ s, NotKeyed s e → kc1.lookup s = kc.lookup s := by
  cases e with
  | obj f =>
    cases hk : f.lookup "key" with
    | none => exact ⟨kc, by simp [storeBucket, hk], fun _ _ => rfl⟩
    | some k =>
      cases hc : f.lookup "doc_count" with
      | none => exact ⟨kc, by simp [storeBucket, hk, hc], fun _ _ => rfl⟩
      | some c =>
        obtain ⟨⟨s0, rfl⟩, ⟨d, rfl⟩⟩ := h f k c rfl hk hc
        refine ⟨kc.set s0 (intOfFloat64 P d), by simp [storeBucket, hk, hc], ?_⟩
        intro s hs
        have hne : s ≠ s0 := by
          rintro rfl
          exact hs f rfl hk
        rw [KeyCount.lookup_set]
        simp [hne]
  | null => exact ⟨kc, rfl, fun _ _ => rfl⟩
  | bool b => exact ⟨kc, rfl, fun _ _ => rfl⟩
  | num q => exact ⟨kc, rfl, fun _ _ => rfl⟩
  | str s => exact ⟨kc, rfl, fun _ _ => rfl⟩
  | arr xs => exact ⟨kc, rfl, fun _ _ => rfl⟩

theorem rangeAr_tolerated (P : Platform) (xs : List Json) (kc : KeyCount)
    (h : ∀ e ∈ xs, Tolerated e) :
    ∃ kc1, rangeAr P kc xs = .ok kc1 ∧
      ∀ s, (∀ e ∈ xs, NotKeyed s e) → kc1.lookup s = kc.lookup s := by
  induction xs generalizing kc with
  | nil => exact ⟨kc, rfl, fun _ _ => rfl⟩
  | cons x xs ih =>
    obtain ⟨kc1, h1, hl1⟩ := storeBucket_tolerated P kc x (h x (by simp))
    obtain ⟨kc2, h2, hl2⟩ := ih kc1 (fun e he => h e (List.mem_cons_of_mem _ he))
    refine ⟨kc2, by simp [rangeAr, h1, h2], ?_⟩
    intro s hs
    rw [hl2 s (fun e he => hs e (List.mem_cons_of_mem _ he)), hl1 s (hs x (by simp))]

/-! ## C7 -/

/-- C7, as amended: for every element of a "buckets" array with a string key
and a numeric doc_count d whose integer part fits an int, in an array whose
other elements do not panic and whose later elements have other keys, the
integer stored in KeyCount[key] is d truncated towards zero: floor(d) when
d is not negative, ceil(d) when d is negative. -/
theorem extractAggBucket_stores_truncated (P : Platform) (name : String)
    (vm : List (String × Json)) (pre post : List Json) (mkdc : List (String × Json))
    (s : String) (d : ℚ)
    (hb : vm.lookup "buckets" = some (.arr (pre ++ .obj mkdc :: post)))
    (hk : mkdc.lookup "key" = some (.str s))
    (hd : mkdc.lookup "doc_count" = some (.num d))
    (hfit : P.fits (truncToZero d))
    (hpre : ∀ e ∈ pre, Tolerated e)
    (hpost : ∀ e ∈ post, Tolerated e ∧ NotKeyed s e) :
    ∃ b, extractAggBucket P name (.obj vm) = .ok b ∧
      b.KeyCount.lookup s = some (truncToZero d) ∧
      (0 ≤ d → truncToZero d = ⌊d⌋) ∧ (d < 0 → truncToZero d = ⌈d⌉) := by
  obtain ⟨kc1, h1, _⟩ := rangeAr_tolerated P pre [] hpre
  obtain ⟨kc2, h2, hl2⟩ := rangeAr_tolerated P post (kc1.set s (intOfFloat64 P d))
    (fun e he => (hpost e he).1)
  refine ⟨⟨name, kc2⟩, ?_, ?_, fun h => truncToZero_of_nonneg h, fun h => truncToZero_of_neg h⟩
  · rw [extractAggBucket_buckets_arr P name vm _ hb, rangeAr_append, h1]
    simp only [rangeAr, storeBucket, hk, hd, h2]
  · simp only
    rw [hl2 s (fun e he => (hpost e he).2), KeyCount.lookup_set, intOfFloat64_of_fits P d hfit]
    simp

/-- C7 at the input of the specification: the doc_count 2.9, that is the
float64 6530219459687219/2^51 nearest to it, is stored as 2. -/
theorem extractAggBucket_stores_truncated_witness :
    (∃ b, extractAggBucket amd64 "tags" (.obj [("buckets", .arr ([] ++
        .obj [("key", .str "bass"),
          ("doc_count", .num (6530219459687219 / 2251799813685248))] :: []))]) = .ok b ∧
      b.KeyCount.lookup "bass"
        = some (truncToZero (6530219459687219 / 2251799813685248)) ∧
      ((0 : ℚ) ≤ 6530219459687219 / 2251799813685248 →
        truncToZero (6530219459687219 / 2251799813685248)
          = ⌊(6530219459687219 / 2251799813685248 : ℚ)⌋) ∧
      ((6530219459687219 / 2251799813685248 : ℚ) < 0 →
        truncToZero (6530219459687219 / 2251799813685248)
          = ⌈(6530219459687219 / 2251799813685248 : ℚ)⌉)) ∧
    truncToZero (6530219459687219 / 2251799813685248) = 2 :=
  have h2 : truncToZero (6530219459687219 / 2251799813685248) = 2 :=
    truncToZero_eq_of_nonneg (by norm_num) (by norm_num) (by norm_num)
  ⟨extractAggBucket_stores_truncated amd64 "tags"
      [("buckets", .arr ([] ++ .obj [("key", .str "bass"),
          ("doc_count", .num (6530219459687219 / 2251799813685248))] :: []))] [] []
      [("key", .str "bass"), ("doc_count", .num (6530219459687219 / 2251799813685248))]
      "bass" (6530219459687219 / 2251799813685248) (by simp [List.lookup])
      (by simp [List.lookup]) (by simp [List.lookup])
      (by rw [h2]; simp [Platform.fits, amd64]) (fun e he => absurd he (List.not_mem_nil e))
      (fun e he => absurd he (List.not_mem_nil e)), h2⟩

/-- C7 as stated fails: the doc_count -0.5 is stored as 0, and floor(-0.5)
is -1. -/
theorem extractAggBucket_negative_not_floor :
    extractAggBucket amd64 "tags" (.obj [("buckets", .arr
        [.obj [("key", .str "bass"), ("doc_count", .num (-1 / 2))]])])
      = .ok ⟨"tags", [("bass", 0)]⟩ ∧
    ⌊(-1 / 2 : ℚ)⌋ = -1 := by
  have h0 : truncToZero (-1 / 2) = 0 :=
    truncToZero_eq_of_neg (by norm_num) (by norm_num) (by norm_num)
  constructor
  · simp [extractAggBucket, rangeAr, storeBucket, List.lookup, KeyCount.set, KeyCount.erase,
      intOfFloat64, h0, Platform.fits, amd64]
  · exact Int.floor_eq_iff.mpr ⟨by norm_num, by norm_num⟩

theorem Json.allObjFields_lookup (p : List (String × Json) → Prop)
    (kvs : List (String × Json)) (k : String) (v : Json)
    (h : Json.AllObjFields p kvs) (hl : kvs.lookup k = some v) : Json.AllObj p v := by
  induction kvs with
  | nil => simp at hl
  | cons kv kvs ih =>
    obtain ⟨a, b⟩ := kv
    rw [lookup_cons_ite] at hl
    simp only [Json.AllObjFields] at h
    by_cases hk : k = a
    · simp only [hk, if_true, Option.some.injEq] at hl
      subst hl
      exact h.1
    · simp only [hk, if_false] at hl
      exact ih h.2 hl

theorem Json.allObjElems_mem (p : List (String × Json) → Prop) (xs : List Json) (x : Json)
    (h : Json.AllObjElems p xs) (hx : x ∈ xs) : Json.AllObj p x := by
  induction xs with
  | nil => simp at hx
  | cons y ys ih =>
    simp only [Json.AllObjElems] at h
    rcases List.mem_cons.mp hx with rfl | hm
    · exact h.1
    · exact ih h.2 hm

theorem KeyCount.mem_erase (m : KeyCount) (k : String) (p : String × Int)
    (h : p ∈ m.erase k) : p ∈ m := by
  induction m with
  | nil => simp [KeyCount.erase] at h
  | cons q m ih =>
    obtain ⟨a, b⟩ := q
    by_cases hak : a = k
    · simp only [KeyCount.erase, hak, if_true] at h
      exact List.mem_cons_of_mem _ (ih h)
    · simp only [KeyCount.erase, hak, if_false, List.mem_cons] at h
      rcases h with h | h
      · exact h ▸ List.mem_cons_self _ _
      · exact List.mem_cons_of_mem _ (ih h)

/-- An invariant of the counts that every conversion of a doc_count of the
array establishes is kept by the loop over the array. -/
theorem rangeAr_counts (P : Platform) (good : Int → Prop) (xs : List Json) (kc kc1 : KeyCount)
    (hx : ∀ f d, Json.obj f ∈ xs → f.lookup "doc_count" = some (.num d) →
      good (intOfFloat64 P d))
    (hkc : ∀ p ∈ kc, good p.2) (h : rangeAr P kc xs = .ok kc1) :
    ∀ p ∈ kc1, good p.2 := by
  induction xs generalizing kc with
  | nil =>
    simp only [rangeAr, Except.ok.injEq] at h
    subst h
    exact hkc
  | cons x xs ih =>
    simp only [rangeAr] at h
    cases hs : storeBucket P kc x with
    | error e => simp [hs] at h
    | ok kc2 =>
      simp only [hs] at h
      refine ih kc2 (fun f d hm => hx f d (List.mem_cons_of_mem _ hm)) ?_ h
      intro p hp
      unfold storeBucket at hs
      split at hs
      · rename_i mkdc
        split at hs
        · split at hs
          · rename_i cnt hcnt
            split at hs
            · split at hs
              · rename_i d
                simp only [Except.ok.injEq] at hs
                subst hs
                simp only [KeyCount.set, List.mem_cons] at hp
                rcases hp with rfl | hp
                · exact hx mkdc d (List.mem_cons_self _ _) hcnt
                · exact hkc p (KeyCount.mem_erase _ _ _ hp)
              · simp at hs
            · simp at hs
          · simp only [Except.ok.injEq] at hs; subst hs; exact hkc p hp
        · simp only [Except.ok.injEq] at hs; subst hs; exact hkc p hp
      · simp only [Except.ok.injEq] at hs; subst hs; exact hkc p hp

mutual
theorem extractAggBucket_counts (P : Platform) (good : Int → Prop)
    (q : List (String × Json) → Prop)
    (hq : ∀ f d, q f → f.lookup "doc_count" = some (.num d) → good (intOfFloat64 P d))
    (k : String) (b : AggregateBucket) :
    ∀ j : Json, j.AllObj q → extractAggBucket P k j = .ok b → ∀ p ∈ b.KeyCount, good p.2
  | .obj vm, hj, h => by
    simp only [Json.AllObj] at hj
    unfold extractAggBucket at h
    split at h
    · exact rangeVm_counts P good q hq k b vm hj.2 h
    · rename_i buck hbuck
      have hb := Json.allObjFields_lookup q vm "buckets" buck hj.2 hbuck
      split at h
      · rename_i ar
        simp only [Json.AllObj] at hb
        split at h
        · rename_i kc hkc
          simp only [Except.ok.injEq] at h
          subst h
          refine rangeAr_counts P good ar [] kc ?_ (by simp) hkc
          intro f d hf hd
          have := Json.allObjElems_mem q ar _ hb hf
          simp only [Json.AllObj] at this
          exact hq f d this.1 hd
        · simp at h
      · simp only [Except.ok.injEq] at h
        subst h
        simp
  | .null, _, h => by simp only [extractAggBucket, Except.ok.injEq] at h; subst h; simp
  | .bool _, _, h => by simp only [extractAggBucket, Except.ok.injEq] at h; subst h; simp
  | .num _, _, h => by simp only [extractAggBucket, Except.ok.injEq] at h; subst h; simp
  | .str _, _, h => by simp only [extractAggBucket, Except.ok.injEq] at h; subst h; simp
  | .arr _, _, h => by simp only [extractAggBucket, Except.ok.injEq] at h; subst h; simp
theorem rangeVm_counts (P : Platform) (good : Int → Prop)
    (q : List (String × Json) → Prop)
    (hq : ∀ f d, q f → f.lookup "doc_count" = some (.num d) → good (intOfFloat64 P d))
    (k0 : String) (b : AggregateBucket) :
    ∀ vm : List (String × Json), Json.AllObjFields q vm → rangeVm P k0 vm = .ok b →
      ∀ p ∈ b.KeyCount, good p.2
  | [], _, h => by simp only [rangeVm, Except.ok.injEq] at h; subst h; simp
  | (k, v) :: rest, hj, h => by
    simp only [Json.AllObjFields] at hj
    simp only [rangeVm] at h
    split at h
    · exact rangeVm_counts P good q hq k0 b rest hj.2 h
    · exact extractAggBucket_counts P good q hq k b v hj.1 h
end

theorem extractAggBucket_wrapper (P : Platform) (name inner : String)
    (vm : List (String × Json)) (v : Json) (h : IsWrapper vm inner v) :
    extractAggBucket P name (.obj vm) = extractAggBucket P inner v := by
  obtain ⟨hb, hne, hin, honly⟩ := h
  rw [extractAggBucket, hb]
  exact rangeVm_eq_of_only P name inner v hne vm hin honly

theorem ExtractAggregates_single (P : Platform) (name : String) (value : Json)
    (b : AggregateBucket) (h : extractAggBucket P name value = .ok b) (hne : b.KeyCount ≠ []) :
    ExtractAggregates P ⟨.wellFormed (.obj [(name, value)])⟩ = .ok ([b], none) := by
  have hlen : 0 < b.KeyCount.length := List.length_pos.mpr hne
  simp [ExtractAggregates, unmarshal, rangeM, h, hlen]

/-! ## C8 -/

/-- C8, as amended: every level of non-bucket nesting is unwrapped. For every
name and every value in which v sits under one or more nested wrapper objects
(no "buckets" key and, apart from "doc_count", a single key),
extractAggBucket(name, value) is extractAggBucket(inner, v) for the key inner
of the innermost wrapper; when that is a bucket with a non-empty KeyCount,
ExtractAggregates keeps the aggregation, under the name inner. -/
theorem extractAggBucket_unwraps_all (P : Platform) (name inner : String) (value v : Json)
    (h : Wraps value inner v) :
    extractAggBucket P name value = extractAggBucket P inner v ∧
    ∀ b, extractAggBucket P inner v = .ok b → b.KeyCount ≠ [] →
      ExtractAggregates P ⟨.wellFormed (.obj [(name, value)])⟩ = .ok ([b], none) := by
  have key : ∀ name, extractAggBucket P name value = extractAggBucket P inner v := by
    induction h with
    | one vm inner v hw => exact fun name => extractAggBucket_wrapper P name inner vm v hw
    | step vm k w inner v hw _ ih =>
      intro name
      rw [extractAggBucket_wrapper P name k vm w hw]
      exact ih k
  refine ⟨key name, ?_⟩
  intro b hb hne
  exact ExtractAggregates_single P name value b (by rw [key name]; exact hb) hne

/-- C8 at the input of the claim: under the name "tags", the value
{"a":{"b":{"buckets":[{"key":"x","doc_count":1}]}}} is extracted as
{"buckets":[...]} is under the name "b". -/
theorem extractAggBucket_unwraps_all_witness :
    extractAggBucket amd64 "tags" (.obj [("a", .obj [("b", .obj [("buckets", .arr
        [.obj [("key", .str "x"), ("doc_count", .num 1)]])])])])
      = extractAggBucket amd64 "b" (.obj [("buckets", .arr
        [.obj [("key", .str "x"), ("doc_count", .num 1)]])]) ∧
    ∀ b, extractAggBucket amd64 "b" (.obj [("buckets", .arr
        [.obj [("key", .str "x"), ("doc_count", .num 1)]])]) = .ok b → b.KeyCount ≠ [] →
      ExtractAggregates amd64 ⟨.wellFormed (.obj [("tags", .obj [("a", .obj [("b",
        .obj [("buckets", .arr [.obj [("key", .str "x"), ("doc_count", .num 1)]])])])])])⟩
        = .ok ([b], none) :=
  extractAggBucket_unwraps_all amd64 "tags" "b" _ _
    (Wraps.step _ "a" (.obj [("b", .obj [("buckets", .arr
        [.obj [("key", .str "x"), ("doc_count", .num 1)]])])]) "b" _
      ⟨by simp [List.lookup], by decide, by simp [List.lookup], by simp⟩
      (Wraps.one _ "b" _ ⟨by simp [List.lookup], by decide, by simp [List.lookup], by simp⟩))

/-- C8 as stated fails: for the value
{"a":{"b":{"buckets":[{"key":"x","doc_count":1}]}}}, with the "buckets" array
under two wrappers, extractAggBucket returns the bucket "b" with KeyCount
{x:1}, which is not empty, and ExtractAggregates returns that bucket. -/
theorem extractAggBucket_two_levels_not_empty :
    extractAggBucket amd64 "tags" (.obj [("a", .obj [("b", .obj [("buckets", .arr
        [.obj [("key", .str "x"), ("doc_count", .num 1)]])])])])
      = .ok ⟨"b", [("x", 1)]⟩ ∧
    ExtractAggregates amd64 ⟨.wellFormed (.obj [("tags", .obj [("a", .obj [("b",
        .obj [("buckets", .arr [.obj [("key", .str "x"), ("doc_count", .num 1)]])])])])])⟩
      = .ok ([⟨"b", [("x", 1)]⟩], none) := by
  constructor <;>
  simp [ExtractAggregates, unmarshal, rangeM, extractAggBucket, rangeVm, rangeAr, storeBucket,
    List.lookup, KeyCount.set, KeyCount.erase, intOfFloat64, truncToZero, Platform.fits, amd64]

/-! ## C9 -/

/-- C9, as amended: for every input on which ExtractAggregates succeeds and in
which every numeric "doc_count" is not negative and has an integer part that
fits an int, every count stored in the KeyCount of every returned bucket is not
negative. -/
theorem ExtractAggregates_counts_nonneg (P : Platform) (j : Json)
    (aggs : List AggregateBucket)
    (hj : j.CountsOk P)
    (h : ExtractAggregates P ⟨.wellFormed j⟩ = .ok (aggs, none)) :
    ∀ b ∈ aggs, ∀ p ∈ b.KeyCount, 0 ≤ p.2 := by
  have hq : ∀ (f : List (String × Json)) (d : ℚ),
      (∀ d, f.lookup "doc_count" = some (.num d) → 0 ≤ d ∧ P.fits (truncToZero d)) →
      f.lookup "doc_count" = some (.num d) → 0 ≤ intOfFloat64 P d := by
    intro f d hf hd
    obtain ⟨h0, hfit⟩ := hf d hd
    rw [intOfFloat64_of_fits P d hfit]
    exact truncToZero_nonneg h0
  have hloop : ∀ (m : List (String × Json)) (acc out : List AggregateBucket),
      Json.AllObjFields (fun f => ∀ d, f.lookup "doc_count" = some (.num d) →
        0 ≤ d ∧ P.fits (truncToZero d)) m →
      (∀ b ∈ acc, ∀ p ∈ b.KeyCount, 0 ≤ p.2) → rangeM P acc m = .ok out →
      ∀ b ∈ out, ∀ p ∈ b.KeyCount, 0 ≤ p.2 := by
    intro m
    induction m with
    | nil =>
      intro acc out _ hacc hr
      simp only [rangeM, Except.ok.injEq] at hr
      subst hr
      exact hacc
    | cons kv m ih =>
      obtain ⟨k, v⟩ := kv
      intro acc out hm hacc hr
      simp only [Json.AllObjFields] at hm
      simp only [rangeM] at hr
      cases hb : extractAggBucket P k v with
      | error e => simp [hb] at hr
      | ok bucket =>
        simp only [hb] at hr
        have hbucket := extractAggBucket_counts P (fun n => 0 ≤ n) _ hq k bucket v hm.1 hb
        split at hr
        · refine ih _ out hm.2 ?_ hr
          intro b hbm
          rcases List.mem_append.mp hbm with h1 | h1
          · exact hacc b h1
          · simp only [List.mem_singleton] at h1
            subst h1
            exact hbucket
        · exact ih _ out hm.2 hacc hr
  cases j with
  | obj m =>
    simp only [Json.CountsOk, Json.AllObj] at hj
    simp only [ExtractAggregates, unmarshal] at h
    cases hr : rangeM P [] m with
    | error e => simp [hr] at h
    | ok out =>
      simp only [hr, Except.ok.injEq, Prod.mk.injEq, and_true] at h
      subst h
      exact hloop m [] out hj.2 (by simp) hr
  | null =>
    simp only [ExtractAggregates, unmarshal, rangeM, Except.ok.injEq, Prod.mk.injEq,
      and_true] at h
    subst h
    simp
  | bool _ => simp [ExtractAggregates, unmarshal] at h
  | num _ => simp [ExtractAggregates, unmarshal] at h
  | str _ => simp [ExtractAggregates, unmarshal] at h
  | arr _ => simp [ExtractAggregates, unmarshal] at h

/-- C9 at the input of the specification,
{"tags":{"buckets":[{"key":"bass","doc_count":1},{"key":"drum","doc_count":1}]}}:
the counts of the returned bucket are not negative. -/
theorem ExtractAggregates_counts_nonneg_witness :
    ExtractAggregates amd64 ⟨.wellFormed (.obj [("tags", .obj [("buckets", .arr
        [.obj [("key", .str "bass"), ("doc_count", .num 1)],
         .obj [("key", .str "drum"), ("doc_count", .num 1)]])])])⟩
      = .ok ([⟨"tags", [("drum", 1), ("bass", 1)]⟩], none) ∧
    ∀ b ∈ [(⟨"tags", [("drum", 1), ("bass", 1)]⟩ : AggregateBucket)],
      ∀ p ∈ b.KeyCount, 0 ≤ p.2 :=
  have h : ExtractAggregates amd64 ⟨.wellFormed (.obj [("tags", .obj [("buckets", .arr
        [.obj [("key", .str "bass"), ("doc_count", .num 1)],
         .obj [("key", .str "drum"), ("doc_count", .num 1)]])])])⟩
      = .ok ([⟨"tags", [("drum", 1), ("bass", 1)]⟩], none) := by
    simp [ExtractAggregates, unmarshal, rangeM, extractAggBucket, rangeAr, storeBucket,
      List.lookup, KeyCount.set, KeyCount.erase, intOfFloat64, truncToZero, Platform.fits,
      amd64]
  ⟨h, ExtractAggregates_counts_nonneg amd64 _ _
    (by simp [Json.CountsOk, Json.AllObj, Json.AllObjFields, Json.AllObjElems, List.lookup,
      truncToZero, Platform.fits, amd64]) h⟩

/-- C9 as stated fails: on {"tags":{"buckets":[{"key":"bass","doc_count":-1}]}}
ExtractAggregates succeeds and the count stored for "bass" is -1. -/
theorem ExtractAggregates_negative_count :
    ExtractAggregates amd64 ⟨.wellFormed (.obj [("tags", .obj [("buckets", .arr
        [.obj [("key", .str "bass"), ("doc_count", .num (-1))]])])])⟩
      = .ok ([⟨"tags", [("bass", -1)]⟩], none) ∧ ((-1 : Int) < 0) := by
  have h0 : truncToZero (-1) = -1 := by
    have := truncToZero_intCast (-1)
    simpa using this
  constructor
  · simp [ExtractAggregates, unmarshal, rangeM, extractAggBucket, rangeAr, storeBucket,
      List.lookup, KeyCount.set, KeyCount.erase, intOfFloat64, h0, Platform.fits, amd64]
  · decide

/-! ## Independence of the iteration order -/

theorem lookup_mid_map {β γ : Type} (g : β → γ) (key k : String) (v w : β) (hg : g v = g w)
    (pre post : List (String × β)) :
    (List.lookup key (pre ++ (k, v) :: post)).map g
      = (List.lookup key (pre ++ (k, w) :: post)).map g := by
  induction pre with
  | nil =>
    simp only [List.nil_append, lookup_cons_ite]
    by_cases h : key = k
    · simp [h, hg]
    · simp [h]
  | cons p pre ih =>
    obtain ⟨a, b⟩ := p
    simp only [List.cons_append, lookup_cons_ite]
    by_cases h : key = a
    · simp [h]
    · simp only [h, if_false]
      exact ih

theorem perm_lookup {β : Type} (l1 l2 : List (String × β)) (h : l1.Perm l2)
    (nd : (l1.map Prod.fst).Nodup) (key : String) : l1.lookup key = l2.lookup key := by
  have nd2 : (l2.map Prod.fst).Nodup := (h.map Prod.fst).nodup_iff.mp nd
  cases h1 : l1.lookup key with
  | some v =>
    rw [lookup_eq_some_iff_mem l1 nd] at h1
    exact ((lookup_eq_some_iff_mem l2 nd2 key v).mpr (h.mem_iff.mp h1)).symm
  | none =>
    cases h2 : l2.lookup key with
    | none => rfl
    | some v =>
      rw [lookup_eq_some_iff_mem l2 nd2] at h2
      have h3 := (lookup_eq_some_iff_mem l1 nd key v).mpr (h.mem_iff.mpr h2)
      rw [h1] at h3
      exact h3

theorem storeBucket_obj_view (P : Platform) (kc : KeyCount) (f : List (String × Json)) :
    storeBucket P kc (.obj f) =
      match (f.lookup "key").map keyOf, (f.lookup "doc_count").map countOf with
      | some (some s), some (some d) => .ok (kc.set s (intOfFloat64 P d))
      | some none, some _ => .error .keyNotString
      | some (some _), some none => .error .docCountNotFloat64
      | _, _ => .ok kc := by
  cases hk : f.lookup "key" with
  | none => simp [storeBucket, hk]
  | some k =>
    cases hc : f.lookup "doc_count" with
    | none => cases k <;> simp [storeBucket, hk, hc, keyOf]
    | some c => cases k <;> cases c <;> simp [storeBucket, hk, hc, keyOf, countOf]

theorem extractAggBucket_obj_view (P : Platform) (name : String) (f : List (String × Json)) :
    extractAggBucket P name (.obj f) =
      match (f.lookup "buckets").map (loopOf P []) with
      | none => rangeVm P name f
      | some (some (.ok kc)) => .ok ⟨name, kc⟩
      | some (some (.error e)) => .error e
      | some none => .ok ⟨name, []⟩ := by
  cases hb : f.lookup "buckets" with
  | none => simp [extractAggBucket, hb]
  | some buck =>
    cases buck with
    | arr ar =>
      simp only [extractAggBucket, hb, Option.map_some', loopOf]
      cases rangeAr P [] ar <;> rfl
    | null => simp [extractAggBucket, hb, loopOf]
    | bool _ => simp [extractAggBucket, hb, loopOf]
    | num _ => simp [extractAggBucket, hb, loopOf]
    | str _ => simp [extractAggBucket, hb, loopOf]
    | obj _ => simp [extractAggBucket, hb, loopOf]

theorem rangeVm_mid (P : Platform) (k : String) (v w : Json)
    (h : k ≠ "doc_count" → ∀ name, extractAggBucket P name v = extractAggBucket P name w)
    (pre post : List (String × Json)) (name : String) :
    rangeVm P name (pre ++ (k, v) :: post) = rangeVm P name (pre ++ (k, w) :: post) := by
  induction pre with
  | nil =>
    simp only [List.nil_append, rangeVm]
    by_cases hk : k = "doc_count"
    · simp only [hk, if_true]
    · simp only [hk, if_false, h hk k]
  | cons p pre ih =>
    obtain ⟨a, b⟩ := p
    show rangeVm P name ((a, b) :: (pre ++ (k, v) :: post))
      = rangeVm P name ((a, b) :: (pre ++ (k, w) :: post))
    rw [rangeVm, rangeVm, ih]

theorem rangeM_mid (P : Platform) (k : String) (v w : Json)
    (h : ∀ name, extractAggBucket P name v = extractAggBucket P name w)
    (pre post : List (String × Json)) (aggs : List AggregateBucket) :
    rangeM P aggs (pre ++ (k, v) :: post) = rangeM P aggs (pre ++ (k, w) :: post) := by
  induction pre generalizing aggs with
  | nil => simp only [List.nil_append, rangeM, h k]
  | cons p pre ih =>
    obtain ⟨a, b⟩ := p
    show rangeM P aggs ((a, b) :: (pre ++ (k, v) :: post))
      = rangeM P aggs ((a, b) :: (pre ++ (k, w) :: post))
    rw [rangeM, rangeM]
    cases extractAggBucket P a b with
    | error e => rfl
    | ok bucket => simp only [ih]

theorem rangeAr_mid (P : Platform) (v w : Json)
    (h : ∀ kc, storeBucket P kc v = storeBucket P kc w)
    (pre post : List Json) (kc : KeyCount) :
    rangeAr P kc (pre ++ v :: post) = rangeAr P kc (pre ++ w :: post) := by
  rw [rangeAr_append, rangeAr_append]
  cases rangeAr P kc pre with
  | error e => rfl
  | ok kc1 => simp only [rangeAr, h kc1]

theorem rangeVm_eq_firstInner (P : Platform) (name : String) (vm : List (String × Json)) :
    rangeVm P name vm =
      match firstInner vm with
      | none => .ok ⟨name, []⟩
      | some kv => extractAggBucket P kv.1 kv.2 := by
  induction vm with
  | nil => simp [rangeVm, firstInner]
  | cons p vm ih =>
    obtain ⟨k, v⟩ := p
    by_cases h : k = "doc_count"
    · simp only [rangeVm, firstInner, h, if_true, ih]
    · simp only [rangeVm, firstInner, h, if_false]

theorem firstInner_some (vm : List (String × Json)) (kv : String × Json)
    (h : firstInner vm = some kv) : kv ∈ vm ∧ kv.1 ≠ "doc_count" := by
  induction vm with
  | nil => simp [firstInner] at h
  | cons p vm ih =>
    obtain ⟨k, v⟩ := p
    by_cases hk : k = "doc_count"
    · simp only [firstInner, hk, if_true] at h
      exact ⟨List.mem_cons_of_mem _ (ih h).1, (ih h).2⟩
    · simp only [firstInner, hk, if_false, Option.some.injEq] at h
      subst h
      exact ⟨List.mem_cons_self _ _, hk⟩

theorem firstInner_none (vm : List (String × Json)) (h : firstInner vm = none) :
    ∀ p ∈ vm, p.1 = "doc_count" := by
  induction vm with
  | nil => simp
  | cons p vm ih =>
    obtain ⟨k, v⟩ := p
    by_cases hk : k = "doc_count"
    · simp only [firstInner, hk, if_true] at h
      intro q hq
      rcases List.mem_cons.mp hq with rfl | hq
      · exact hk
      · exact ih h q hq
    · simp [firstInner, hk] at h

theorem lookup_none_not_mem {β : Type} (l : List (String × β)) (key : String)
    (h : l.lookup key = none) : key ∉ l.map Prod.fst := by
  induction l with
  | nil => simp
  | cons p l ih =>
    obtain ⟨a, b⟩ := p
    rw [lookup_cons_ite] at h
    by_cases hk : key = a
    · simp [hk] at h
    · simp only [hk, if_false] at h
      simp only [List.map_cons, List.mem_cons, not_or]
      exact ⟨hk, ih h⟩

/-- With distinct keys and at most one key other than "doc_count", the entry at
which the loop over a wrapper returns does not depend on the order. -/
theorem firstInner_perm (l1 l2 : List (String × Json)) (hp : l1.Perm l2)
    (nd : (l1.map Prod.fst).Nodup)
    (hone : AtMostOneInner (l1.map Prod.fst)) :
    firstInner l1 = firstInner l2 := by
  cases h1 : firstInner l1 with
  | none =>
    cases h2 : firstInner l2 with
    | none => rfl
    | some kv =>
      obtain ⟨hm, hne⟩ := firstInner_some l2 kv h2
      exact absurd (firstInner_none l1 h1 kv (hp.mem_iff.mpr hm)) hne
  | some kv =>
    obtain ⟨hm, hne⟩ := firstInner_some l1 kv h1
    cases h2 : firstInner l2 with
    | none => exact absurd (firstInner_none l2 h2 kv (hp.mem_iff.mp hm)) hne
    | some kv2 =>
      obtain ⟨hm2, hne2⟩ := firstInner_some l2 kv2 h2
      have hm2 : kv2 ∈ l1 := hp.mem_iff.mpr hm2
      obtain ⟨k, v⟩ := kv
      obtain ⟨k2, v2⟩ := kv2
      have hk : k = k2 :=
        hone k (List.mem_map_of_mem Prod.fst hm) k2 (List.mem_map_of_mem Prod.fst hm2) hne hne2
      subst hk
      have e1 := (lookup_eq_some_iff_mem l1 nd k v).mpr hm
      have e2 := (lookup_eq_some_iff_mem l1 nd k v2).mpr hm2
      rw [e1] at e2
      rw [Option.some.inj e2]

theorem sameList_refl (r : Except Panic (List AggregateBucket)) : SameList r r := by
  cases r with
  | error e => trivial
  | ok a => exact List.Perm.refl a

theorem sameList_trans {a b c : Except Panic (List AggregateBucket)}
    (h1 : SameList a b) (h2 : SameList b c) : SameList a c := by
  cases a <;> cases b <;> cases c <;> simp only [SameList] at h1 h2 ⊢
  exact h1.trans h2

theorem rangeM_acc_perm (P : Platform) (m : List (String × Json))
    (acc1 acc2 : List AggregateBucket) (h : acc1.Perm acc2) :
    SameList (rangeM P acc1 m) (rangeM P acc2 m) := by
  induction m generalizing acc1 acc2 with
  | nil => exact h
  | cons p m ih =>
    obtain ⟨k, v⟩ := p
    simp only [rangeM]
    cases extractAggBucket P k v with
    | error e => trivial
    | ok bucket =>
      simp only
      split
      · exact ih _ _ (h.append_right _)
      · exact ih _ _ h

/-- The loop over the top-level map returns the same buckets, up to order,
whatever the order of the entries; a panic in one order is a panic in every
order. -/
theorem rangeM_perm (P : Platform) (l1 l2 : List (String × Json)) (hp : l1.Perm l2)
    (acc1 acc2 : List AggregateBucket) (h : acc1.Perm acc2) :
    SameList (rangeM P acc1 l1) (rangeM P acc2 l2) := by
  induction hp generalizing acc1 acc2 with
  | nil => exact h
  | cons x _ ih =>
    obtain ⟨k, v⟩ := x
    simp only [rangeM]
    cases extractAggBucket P k v with
    | error e => trivial
    | ok bucket =>
      simp only
      split
      · exact ih _ _ (h.append_right _)
      · exact ih _ _ h
  | swap x y l =>
    obtain ⟨kx, vx⟩ := x
    obtain ⟨ky, vy⟩ := y
    simp only [rangeM]
    cases extractAggBucket P kx vx with
    | error e =>
      cases extractAggBucket P ky vy with
      | error e2 => trivial
      | ok by1 => simp only; split <;> trivial
    | ok bx =>
      cases extractAggBucket P ky vy with
      | error e2 => simp only; split <;> trivial
      | ok by1 =>
        simp only
        split <;> split
        · refine rangeM_acc_perm P l _ _ ?_
          rw [List.append_assoc, List.append_assoc]
          exact h.append (List.Perm.swap _ _ _)
        · exact rangeM_acc_perm P l _ _ (h.append_right _)
        · exact rangeM_acc_perm P l _ _ (h.append_right _)
        · exact rangeM_acc_perm P l _ _ h
  | trans _ _ ih1 ih2 =>
    exact sameList_trans (ih1 _ _ h) (ih2 _ _ (List.Perm.refl _))

theorem Json.allObjFields_append (p : List (String × Json) → Prop)
    (l1 l2 : List (String × Json)) :
    Json.AllObjFields p (l1 ++ l2) ↔ Json.AllObjFields p l1 ∧ Json.AllObjFields p l2 := by
  induction l1 with
  | nil => simp [Json.AllObjFields]
  | cons kv l1 ih =>
    obtain ⟨k, v⟩ := kv
    show Json.AllObjFields p ((k, v) :: (l1 ++ l2)) ↔ _
    simp only [Json.AllObjFields, ih, and_assoc]

theorem Json.allObjElems_append (p : List (String × Json) → Prop) (l1 l2 : List Json) :
    Json.AllObjElems p (l1 ++ l2) ↔ Json.AllObjElems p l1 ∧ Json.AllObjElems p l2 := by
  induction l1 with
  | nil => simp [Json.AllObjElems]
  | cons x l1 ih =>
    show Json.AllObjElems p (x :: (l1 ++ l2)) ↔ _
    simp only [Json.AllObjElems, ih, and_assoc]

theorem Json.allObjFields_perm (p : List (String × Json) → Prop)
    (l1 l2 : List (String × Json)) (h : l1.Perm l2) (h1 : Json.AllObjFields p l1) :
    Json.AllObjFields p l2 := by
  induction h with
  | nil => exact h1
  | cons x _ ih =>
    obtain ⟨k, v⟩ := x
    simp only [Json.AllObjFields] at h1 ⊢
    exact ⟨h1.1, ih h1.2⟩
  | swap x y l =>
    obtain ⟨kx, vx⟩ := x
    obtain ⟨ky, vy⟩ := y
    simp only [Json.AllObjFields] at h1 ⊢
    exact ⟨h1.2.1, h1.1, h1.2.2⟩
  | trans _ _ ih1 ih2 => exact ih2 (ih1 h1)

theorem Json.unambiguousFields_iff (l : List (String × Json)) :
    Json.UnambiguousFields l ↔ ∀ kv ∈ l, kv.1 ≠ "doc_count" → Json.Unambiguous kv.2 := by
  induction l with
  | nil => simp [Json.UnambiguousFields]
  | cons kv l ih =>
    obtain ⟨k, v⟩ := kv
    simp only [Json.UnambiguousFields, ih, List.mem_cons, forall_eq_or_imp]

theorem sameResult_refl (r : Except Panic (List AggregateBucket × Option DecodeError)) :
    SameResult r r := by
  cases r with
  | error e => trivial
  | ok a => exact ⟨List.Perm.refl _, Eq.refl _⟩

theorem sameResult_trans {a b c : Except Panic (List AggregateBucket × Option DecodeError)}
    (h1 : SameResult a b) (h2 : SameResult b c) : SameResult a c := by
  cases a <;> cases b <;> cases c <;> simp only [SameResult] at h1 h2 ⊢
  exact ⟨h1.1.trans h2.1, h1.2.trans h2.2⟩

theorem indistinguishable_refl (P : Platform) (v : Json) : Indistinguishable P v v :=
  ⟨Eq.refl _, Eq.refl _, fun _ => Eq.refl _, fun _ => Eq.refl _,
    fun h => ⟨h, fun _ => Eq.refl _⟩, fun h => ⟨h, sameResult_refl _⟩⟩

theorem indistinguishable_trans (P : Platform) {a b c : Json}
    (h1 : Indistinguishable P a b) (h2 : Indistinguishable P b c) : Indistinguishable P a c := by
  obtain ⟨a1, a2, a3, a4, a5, a6⟩ := h1
  obtain ⟨b1, b2, b3, b4, b5, b6⟩ := h2
  refine ⟨a1.trans b1, a2.trans b2, fun kc => (a3 kc).trans (b3 kc),
    fun kc => (a4 kc).trans (b4 kc), ?_, ?_⟩
  · intro hu
    obtain ⟨hb, e1⟩ := a5 hu
    obtain ⟨hc, e2⟩ := b5 hb
    exact ⟨hc, fun n => (e1 n).trans (e2 n)⟩
  · intro hu
    obtain ⟨hb, e1⟩ := a6 hu
    obtain ⟨hc, e2⟩ := b6 hb
    exact ⟨hc, sameResult_trans e1 e2⟩

theorem map_fst_mid {β : Type} (pre post : List (String × β)) (k : String) (v w : β) :
    (pre ++ (k, v) :: post).map Prod.fst = (pre ++ (k, w) :: post).map Prod.fst := by
  simp

/-- Reordering the entries of the objects of a value changes nothing that the
extraction can observe. -/
theorem reorder_indistinguishable (P : Platform) (v w : Json) (h : Json.Reorder v w) :
    v.WellKeyed → w.WellKeyed ∧ Indistinguishable P v w := by
  induction h with
  | refl j => exact fun hj => ⟨hj, indistinguishable_refl P j⟩
  | trans a b c _ _ ih1 ih2 =>
    intro ha
    obtain ⟨hb, i1⟩ := ih1 ha
    obtain ⟨hc, i2⟩ := ih2 hb
    exact ⟨hc, indistinguishable_trans P i1 i2⟩
  | perm l1 l2 hp =>
    intro hv
    simp only [Json.WellKeyed, Json.AllObj] at hv ⊢
    obtain ⟨hnd, hf⟩ := hv
    have hk : (l1.map Prod.fst).Perm (l2.map Prod.fst) := hp.map Prod.fst
    have hlk : ∀ key, l1.lookup key = l2.lookup key := perm_lookup l1 l2 hp hnd
    refine ⟨⟨hk.nodup_iff.mp hnd, Json.allObjFields_perm _ l1 l2 hp hf⟩,
      Eq.refl _, Eq.refl _, ?_, fun _ => Eq.refl _, ?_, ?_⟩
    · intro kc
      rw [storeBucket_obj_view, storeBucket_obj_view, hlk "key", hlk "doc_count"]
    · intro hu
      simp only [Json.Unambiguous] at hu ⊢
      constructor
      · rcases hu with hb | ⟨hone, hfs⟩
        · exact Or.inl (hk.mem_iff.mp hb)
        · refine Or.inr ⟨fun a ha b hb => hone a (hk.mem_iff.mpr ha) b (hk.mem_iff.mpr hb), ?_⟩
          rw [Json.unambiguousFields_iff] at hfs ⊢
          exact fun kv hkv => hfs kv (hp.mem_iff.mpr hkv)
      · intro name
        rw [extractAggBucket_obj_view, extractAggBucket_obj_view, ← hlk "buckets"]
        cases hb : l1.lookup "buckets" with
        | some buck =>
          simp only [Option.map_some']
          cases loopOf P [] buck with
          | none => rfl
          | some r => cases r <;> rfl
        | none =>
          simp only [Option.map_none']
          rw [rangeVm_eq_firstInner, rangeVm_eq_firstInner]
          have hnb := lookup_none_not_mem l1 "buckets" hb
          rcases hu with hin | ⟨hone, _⟩
          · exact absurd hin hnb
          · rw [firstInner_perm l1 l2 hp hnd hone]
    · intro hu
      simp only [Json.UnambiguousAggs] at hu ⊢
      refine ⟨fun kv hkv => hu kv (hp.mem_iff.mpr hkv), ?_⟩
      have := rangeM_perm P l1 l2 hp [] [] (List.Perm.refl _)
      simp only [ExtractAggregates, unmarshal]
      cases h1 : rangeM P [] l1 with
      | error e1 =>
        cases h2 : rangeM P [] l2 with
        | error e2 => trivial
        | ok a2 => simp only [h1, h2, SameList] at this
      | ok a1 =>
        cases h2 : rangeM P [] l2 with
        | error e2 => simp only [h1, h2, SameList] at this
        | ok a2 =>
          simp only [h1, h2, SameList] at this
          exact ⟨this, Eq.refl _⟩
  | field pre post k v w _ ih =>
    intro hv
    simp only [Json.WellKeyed, Json.AllObj] at hv ⊢
    obtain ⟨hnd, hf⟩ := hv
    rw [Json.allObjFields_append] at hf
    simp only [Json.AllObjFields] at hf
    obtain ⟨hw, i⟩ := ih hf.2.1
    obtain ⟨i1, i2, _, i4, i5, _⟩ := i
    have hview : ∀ name,
        (k ≠ "doc_count" → ∀ n, extractAggBucket P n v = extractAggBucket P n w) →
        extractAggBucket P name (.obj (pre ++ (k, v) :: post))
          = extractAggBucket P name (.obj (pre ++ (k, w) :: post)) := by
      intro name hex
      rw [extractAggBucket_obj_view, extractAggBucket_obj_view,
        lookup_mid_map (loopOf P []) "buckets" k v w (i4 []) pre post,
        rangeVm_mid P k v w hex pre post name]
    refine ⟨⟨?_, ?_⟩, Eq.refl _, Eq.refl _, ?_, fun _ => Eq.refl _, ?_, ?_⟩
    · rw [map_fst_mid pre post k w v]
      exact hnd
    · rw [Json.allObjFields_append]
      simp only [Json.AllObjFields]
      exact ⟨hf.1, hw, hf.2.2⟩
    · intro kc
      rw [storeBucket_obj_view, storeBucket_obj_view,
        lookup_mid_map keyOf "key" k v w i1 pre post,
        lookup_mid_map countOf "doc_count" k v w i2 pre post]
    · intro hu
      simp only [Json.Unambiguous] at hu ⊢
      rw [map_fst_mid pre post k w v]
      rcases hu with hb | ⟨hone, hfs⟩
      · refine ⟨Or.inl hb, fun name => ?_⟩
        rw [extractAggBucket_obj_view, extractAggBucket_obj_view,
          lookup_mid_map (loopOf P []) "buckets" k v w (i4 []) pre post]
        cases hl : List.lookup "buckets" (pre ++ (k, w) :: post) with
        | none =>
          have := lookup_none_not_mem _ "buckets" hl
          rw [map_fst_mid pre post k w v] at this
          exact absurd hb this
        | some buck =>
          simp only [Option.map_some']
          cases loopOf P [] buck with
          | none => rfl
          | some r => cases r <;> rfl
      · rw [Json.unambiguousFields_iff] at hfs
        have hkv : k ≠ "doc_count" → Json.Unambiguous v :=
          hfs (k, v) (by simp)
        refine ⟨Or.inr ⟨hone, ?_⟩, fun name => hview name
          (fun hk => (i5 (hkv hk)).2)⟩
        rw [Json.unambiguousFields_iff]
        intro kv hmem hne
        rcases List.mem_append.mp hmem with hm | hm
        · exact hfs kv (List.mem_append_left _ hm) hne
        · rcases List.mem_cons.mp hm with rfl | hm
          · exact (i5 (hkv hne)).1
          · exact hfs kv (List.mem_append_right _ (List.mem_cons_of_mem _ hm)) hne
    · intro hu
      simp only [Json.UnambiguousAggs] at hu ⊢
      have hv1 : Json.Unambiguous v := hu (k, v) (by simp)
      obtain ⟨hw1, hex⟩ := i5 hv1
      constructor
      · intro kv hmem
        rcases List.mem_append.mp hmem with hm | hm
        · exact hu kv (List.mem_append_left _ hm)
        · rcases List.mem_cons.mp hm with rfl | hm
          · exact hw1
          · exact hu kv (List.mem_append_right _ (List.mem_cons_of_mem _ hm))
      · simp only [ExtractAggregates, unmarshal]
        rw [rangeM_mid P k v w hex pre post []]
        exact sameResult_refl _
  | elem pre post v w _ ih =>
    intro hv
    simp only [Json.WellKeyed, Json.AllObj] at hv ⊢
    rw [Json.allObjElems_append] at hv
    simp only [Json.AllObjElems] at hv
    obtain ⟨hw, i⟩ := ih hv.2.1
    obtain ⟨_, _, i3, _, _, _⟩ := i
    refine ⟨?_, Eq.refl _, Eq.refl _, fun _ => Eq.refl _, ?_,
      fun _ => ⟨by simp [Json.Unambiguous], fun _ => Eq.refl _⟩,
      fun _ => ⟨by simp [Json.UnambiguousAggs], sameResult_refl _⟩⟩
    · rw [Json.allObjElems_append]
      simp only [Json.AllObjElems]
      exact ⟨hv.1, hw, hv.2.2⟩
    · intro kc
      simp only [loopOf]
      rw [rangeAr_mid P v w i3 pre post kc]

/-! ## C10 -/

/-- C10, as amended: two runs of ExtractAggregates on the same bytes, whatever
the orders in which range visits the maps, return result sets that are equal up
to order (or both panic), provided that under no top-level aggregation a
wrapper object without "buckets" that extractAggBucket comes to has several keys
other than "doc_count". -/
theorem ExtractAggregates_order_independent (P : Platform) (j1 j2 : Json)
    (h : Json.Reorder j1 j2) (hk : j1.WellKeyed) (hu : j1.UnambiguousAggs) :
    SameResult (ExtractAggregates P ⟨.wellFormed j1⟩) (ExtractAggregates P ⟨.wellFormed j2⟩) :=
  ((reorder_indistinguishable P j1 j2 h hk).2.2.2.2.2.2 hu).2

/-- C10 at a concrete input: {"tags":{"buckets":[{"key":"bass","doc_count":1}]},
"genre":{"doc_count":3,"names":{"buckets":[{"key":"rock","doc_count":2}]}}},
visited in the written order in one run and, in the other, with the two
top-level entries and the two entries of "genre" in the opposite order. -/
theorem ExtractAggregates_order_independent_witness :
    SameResult
      (ExtractAggregates amd64 ⟨.wellFormed (.obj
        [("tags", .obj [("buckets", .arr [.obj [("key", .str "bass"), ("doc_count", .num 1)]])]),
         ("genre", .obj [("doc_count", .num 3), ("names", .obj [("buckets", .arr
            [.obj [("key", .str "rock"), ("doc_count", .num 2)]])])])])⟩)
      (ExtractAggregates amd64 ⟨.wellFormed (.obj
        [("genre", .obj [("names", .obj [("buckets", .arr
            [.obj [("key", .str "rock"), ("doc_count", .num 2)]])]), ("doc_count", .num 3)]),
         ("tags", .obj [("buckets", .arr
            [.obj [("key", .str "bass"), ("doc_count", .num 1)]])])])⟩) :=
  ExtractAggregates_order_independent amd64 _ _
    (Json.Reorder.trans _ _ _
      (Json.Reorder.perm _ _ (List.Perm.swap _ _ _))
      (Json.Reorder.field [] _ "genre" _ _ (Json.Reorder.perm _ _ (List.Perm.swap _ _ _))))
    (by simp [Json.WellKeyed, Json.AllObj, Json.AllObjFields, Json.AllObjElems])
    (by simp [Json.UnambiguousAggs, Json.Unambiguous, Json.UnambiguousFields, AtMostOneInner])

/-- C10 as stated fails: in {"tags":{"a":{"buckets":[{"key":"x","doc_count":1}]},
"b":{"buckets":[{"key":"y","doc_count":1}]}}} the wrapper "tags" has two keys
other than "doc_count". A run that visits "a" first returns the bucket "a"
{x:1}, a run that visits "b" first returns the bucket "b" {y:1}. -/
theorem ExtractAggregates_order_dependent :
    Json.Reorder
      (.obj [("tags", .obj
        [("a", .obj [("buckets", .arr [.obj [("key", .str "x"), ("doc_count", .num 1)]])]),
         ("b", .obj [("buckets", .arr [.obj [("key", .str "y"), ("doc_count", .num 1)]])])])])
      (.obj [("tags", .obj
        [("b", .obj [("buckets", .arr [.obj [("key", .str "y"), ("doc_count", .num 1)]])]),
         ("a", .obj [("buckets", .arr [.obj [("key", .str "x"), ("doc_count", .num 1)]])])])]) ∧
    ExtractAggregates amd64 ⟨.wellFormed (.obj [("tags", .obj
        [("a", .obj [("buckets", .arr [.obj [("key", .str "x"), ("doc_count", .num 1)]])]),
         ("b", .obj [("buckets", .arr [.obj [("key", .str "y"), ("doc_count", .num 1)]])])])])⟩
      = .ok ([⟨"a", [("x", 1)]⟩], none) ∧
    ExtractAggregates amd64 ⟨.wellFormed (.obj [("tags", .obj
        [("b", .obj [("buckets", .arr [.obj [("key", .str "y"), ("doc_count", .num 1)]])]),
         ("a", .obj [("buckets", .arr [.obj [("key", .str "x"), ("doc_count", .num 1)]])])])])⟩
      = .ok ([⟨"b", [("y", 1)]⟩], none) ∧
    ¬ SameResult (.ok ([⟨"a", [("x", 1)]⟩], none)) (.ok ([⟨"b", [("y", 1)]⟩], none)) := by
  refine ⟨?_, ?_, ?_, ?_⟩
  · exact Json.Reorder.field [] [] "tags" _ _ (Json.Reorder.perm _ _ (List.Perm.swap _ _ _))
  · simp [ExtractAggregates, unmarshal, rangeM, extractAggBucket, rangeVm, rangeAr, storeBucket,
      List.lookup, KeyCount.set, KeyCount.erase, intOfFloat64, truncToZero, Platform.fits, amd64]
  · simp [ExtractAggregates, unmarshal, rangeM, extractAggBucket, rangeVm, rangeAr, storeBucket,
      List.lookup, KeyCount.set, KeyCount.erase, intOfFloat64, truncToZero, Platform.fits, amd64]
  · simp [SameResult]

/-! ## C11 -/

theorem Json.depth_le_depthFields (vm : List (String × Json)) (kv : String × Json)
    (h : kv ∈ vm) : kv.2.depth ≤ Json.depthFields vm := by
  induction vm with
  | nil => simp at h
  | cons p vm ih =>
    obtain ⟨a, b⟩ := p
    simp only [Json.depthFields]
    rcases List.mem_cons.mp h with rfl | hm
    · exact le_max_left _ _
    · exact le_trans (ih hm) (le_max_right _ _)

theorem nextCall_sub (v : Json) (kv : String × Json) (h : nextCall v = some kv) :
    (∃ vm, v = .obj vm ∧ kv ∈ vm) ∧ kv.2.depth < v.depth := by
  cases v with
  | obj vm =>
    simp only [nextCall] at h
    cases hb : vm.lookup "buckets" with
    | some buck => simp [hb] at h
    | none =>
      simp only [hb] at h
      have hm := (firstInner_some vm kv h).1
      refine ⟨⟨vm, rfl, hm⟩, ?_⟩
      have := Json.depth_le_depthFields vm kv hm
      simp only [Json.depth]
      omega
  | null => simp [nextCall] at h
  | bool _ => simp [nextCall] at h
  | num _ => simp [nextCall] at h
  | str _ => simp [nextCall] at h
  | arr _ => simp [nextCall] at h

theorem extractAggBucket_eq_nextCall (P : Platform) (k : String) (vm : List (String × Json))
    (kv : String × Json) (h : nextCall (.obj vm) = some kv) :
    extractAggBucket P k (.obj vm) = extractAggBucket P kv.1 kv.2 := by
  simp only [nextCall] at h
  cases hb : vm.lookup "buckets" with
  | some buck => simp [hb] at h
  | none =>
    simp only [hb] at h
    rw [extractAggBucket, hb]
    simp only
    rw [rangeVm_eq_firstInner, h]

theorem extractAggBucketFuel_enough (P : Platform) (n : Nat) :
    ∀ (k : String) (v : Json), v.depth < n →
      extractAggBucketFuel P n k v = some (extractAggBucket P k v) := by
  induction n with
  | zero => intro k v h; omega
  | succ n ih =>
    intro k v h
    cases v with
    | obj vm =>
      cases hb : vm.lookup "buckets" with
      | some buck =>
        cases buck with
        | arr ar =>
          simp only [extractAggBucketFuel, extractAggBucket, hb]
          cases rangeAr P [] ar <;> rfl
        | null => simp [extractAggBucketFuel, extractAggBucket, hb]
        | bool _ => simp [extractAggBucketFuel, extractAggBucket, hb]
        | num _ => simp [extractAggBucketFuel, extractAggBucket, hb]
        | str _ => simp [extractAggBucketFuel, extractAggBucket, hb]
        | obj _ => simp [extractAggBucketFuel, extractAggBucket, hb]
      | none =>
        cases hf : firstInner vm with
        | none =>
          simp only [extractAggBucketFuel, extractAggBucket, hb, hf, rangeVm_eq_firstInner]
        | some kv =>
          have hn : nextCall (.obj vm) = some kv := by simp [nextCall, hb, hf]
          have hd := (nextCall_sub (.obj vm) kv hn).2
          simp only [extractAggBucketFuel, hb, hf]
          rw [ih kv.1 kv.2 (by omega), extractAggBucket_eq_nextCall P k vm kv hn]
    | null => simp [extractAggBucketFuel, extractAggBucket]
    | bool _ => simp [extractAggBucketFuel, extractAggBucket]
    | num _ => simp [extractAggBucketFuel, extractAggBucket]
    | str _ => simp [extractAggBucketFuel, extractAggBucket]
    | arr _ => simp [extractAggBucketFuel, extractAggBucket]

/-- C11: the recursion of extractAggBucket terminates on every value. A
recursive call is made on the value of an entry of the current object, whose
depth is strictly smaller; so with a budget of depth + 1 nested calls (or more)
the function as Go runs it returns, and what it returns is the value of the
total function extractAggBucket defined by recursion on the value. -/
theorem extractAggBucket_terminates (P : Platform) (k : String) (v : Json) :
    (∀ kv, nextCall v = some kv →
      (∃ vm, v = .obj vm ∧ kv ∈ vm) ∧ kv.2.depth < v.depth ∧
      extractAggBucket P k v = extractAggBucket P kv.1 kv.2) ∧
    (∀ n, v.depth < n → extractAggBucketFuel P n k v = some (extractAggBucket P k v)) ∧
    extractAggBucketFuel P (v.depth + 1) k v = some (extractAggBucket P k v) := by
  refine ⟨?_, fun n hn => extractAggBucketFuel_enough P n k v hn,
    extractAggBucketFuel_enough P _ k v (Nat.lt_succ_self _)⟩
  intro kv h
  obtain ⟨⟨vm, rfl, hm⟩, hd⟩ := nextCall_sub v kv h
  exact ⟨⟨vm, rfl, hm⟩, hd, extractAggBucket_eq_nextCall P k vm kv h⟩

/-- A concrete run of C11: under {"filtered":{"buckets":[{"key":"bass",
"doc_count":1}]}}, of depth 4, a budget of one call is used up by the recursive
call, and the budget depth + 1 gives the result of extractAggBucket. -/
theorem extractAggBucket_terminates_witness :
    extractAggBucketFuel amd64 1 "tags" (.obj [("filtered", .obj [("buckets", .arr
        [.obj [("key", .str "bass"), ("doc_count", .num 1)]])])]) = none ∧
    (Json.obj [("filtered", .obj [("buckets", .arr
        [.obj [("key", .str "bass"), ("doc_count", .num 1)]])])]).depth = 4 ∧
    extractAggBucketFuel amd64 (4 + 1) "tags" (.obj [("filtered", .obj [("buckets", .arr
        [.obj [("key", .str "bass"), ("doc_count", .num 1)]])])])
      = some (.ok ⟨"filtered", [("bass", 1)]⟩) := by
  have hd : (Json.obj [("filtered", .obj [("buckets", .arr
        [.obj [("key", .str "bass"), ("doc_count", .num 1)]])])]).depth = 4 := by
    simp [Json.depth, Json.depthFields, Json.depthElems]
  refine ⟨?_, hd, ?_⟩
  · simp [extractAggBucketFuel, firstInner, List.lookup]
  · have h := (extractAggBucket_terminates amd64 "tags" (.obj [("filtered", .obj [("buckets",
        .arr [.obj [("key", .str "bass"), ("doc_count", .num 1)]])])])).2.2
    rw [hd] at h
    rw [h]
    simp [extractAggBucket, rangeVm, rangeAr, storeBucket, List.lookup, KeyCount.set,
      KeyCount.erase, intOfFloat64, truncToZero, Platform.fits, amd64]

/-! ## C12 -/

theorem rangeM_eq_normalizeAll (P : Platform) (m : List (String × Json))
    (aggs : List AggregateBucket) :
    rangeM P aggs m =
      match normalizeAll P m with
      | .ok bs => .ok (aggs ++ bs.filter (fun b => decide (0 < b.KeyCount.length)))
      | .error e => .error e := by
  induction m generalizing aggs with
  | nil => simp [rangeM, normalizeAll]
  | cons p m ih =>
    obtain ⟨k, v⟩ := p
    simp only [rangeM, normalizeAll]
    cases extractAggBucket P k v with
    | error e => rfl
    | ok b =>
      simp only
      by_cases hlen : b.KeyCount.length > 0
      · simp only [hlen, if_true]
        rw [ih]
        cases normalizeAll P m with
        | error e => rfl
        | ok bs =>
          have : 0 < b.KeyCount.length := hlen
          simp [List.filter_cons, this]
      · simp only [hlen, if_false]
        rw [ih]
        cases normalizeAll P m with
        | error e => rfl
        | ok bs =>
          have : ¬ 0 < b.KeyCount.length := hlen
          simp [List.filter_cons, this]

/-- C12: for every input that decodes to a top-level object m, what
ExtractAggregates returns is the list of extractAggBucket(k, v) over the pairs
(k, v) of m, in the order in which they are visited, restricted to the results
whose KeyCount is non-empty, with a nil error; it panics exactly when one of
these calls does. -/
theorem ExtractAggregates_eq_collectNonEmpty (P : Platform) (m : List (String × Json)) :
    ExtractAggregates P ⟨.wellFormed (.obj m)⟩ = collectNonEmpty P m := by
  simp only [ExtractAggregates, unmarshal, collectNonEmpty, rangeM_eq_normalizeAll]
  cases normalizeAll P m with
  | error e => rfl
  | ok bs => simp

/-- C12 at a concrete input: of {"tags":{"buckets":[{"key":"bass","doc_count":1}]},
"none":{"buckets":[]}} both pairs are normalized and the one with a non-empty
KeyCount is returned. -/
theorem ExtractAggregates_eq_collectNonEmpty_witness :
    ExtractAggregates amd64 ⟨.wellFormed (.obj
        [("tags", .obj [("buckets", .arr [.obj [("key", .str "bass"), ("doc_count", .num 1)]])]),
         ("none", .obj [("buckets", .arr [])])])⟩
      = collectNonEmpty amd64
        [("tags", .obj [("buckets", .arr [.obj [("key", .str "bass"), ("doc_count", .num 1)]])]),
         ("none", .obj [("buckets", .arr [])])] ∧
    normalizeAll amd64
        [("tags", .obj [("buckets", .arr [.obj [("key", .str "bass"), ("doc_count", .num 1)]])]),
         ("none", .obj [("buckets", .arr [])])]
      = .ok [⟨"tags", [("bass", 1)]⟩, ⟨"none", []⟩] ∧
    collectNonEmpty amd64
        [("tags", .obj [("buckets", .arr [.obj [("key", .str "bass"), ("doc_count", .num 1)]])]),
         ("none", .obj [("buckets", .arr [])])]
      = .ok ([⟨"tags", [("bass", 1)]⟩], none) := by
  have hn : normalizeAll amd64
        [("tags", .obj [("buckets", .arr [.obj [("key", .str "bass"), ("doc_count", .num 1)]])]),
         ("none", .obj [("buckets", .arr [])])]
      = .ok [⟨"tags", [("bass", 1)]⟩, ⟨"none", []⟩] := by
    simp [normalizeAll, extractAggBucket, rangeAr, storeBucket, List.lookup, KeyCount.set,
      KeyCount.erase, intOfFloat64, truncToZero, Platform.fits, amd64]
  refine ⟨ExtractAggregates_eq_collectNonEmpty amd64 _, hn, ?_⟩
  simp [collectNonEmpty, hn]

/-! ## C13 -/

theorem extractAggBucket_of_buckets (P : Platform) (name : String)
    (vm : List (String × Json)) (buck : Json) (hb : vm.lookup "buckets" = some buck) :
    extractAggBucket P name (.obj vm) =
      match loopOf P [] buck with
      | some (.ok kc) => .ok ⟨name, kc⟩
      | some (.error e) => .error e
      | none => .ok ⟨name, []⟩ := by
  rw [extractAggBucket_obj_view, hb]
  simp only [Option.map_some']
  cases loopOf P [] buck with
  | none => rfl
  | some r => cases r <;> rfl

theorem extractAggBucketFuel_one_of_buckets (P : Platform) (name : String)
    (vm : List (String × Json)) (buck : Json) (hb : vm.lookup "buckets" = some buck) :
    extractAggBucketFuel P 1 name (.obj vm) = some (extractAggBucket P name (.obj vm)) := by
  cases buck with
  | arr ar =>
    simp only [extractAggBucketFuel, extractAggBucket, hb]
    cases rangeAr P [] ar <;> rfl
  | null => simp [extractAggBucketFuel, extractAggBucket, hb]
  | bool _ => simp [extractAggBucketFuel, extractAggBucket, hb]
  | num _ => simp [extractAggBucketFuel, extractAggBucket, hb]
  | str _ => simp [extractAggBucketFuel, extractAggBucket, hb]
  | obj _ => simp [extractAggBucketFuel, extractAggBucket, hb]

/-- C13: for every name and every object value with a "buckets" key,
extractAggBucket(name, value) depends only on name and value["buckets"]: any
other object with the same "buckets" gives the same result; a returned bucket is
named name; no recursive call is made (the budget of one call suffices); and
when value["buckets"] is not an array the result is the empty bucket named
name. -/
theorem extractAggBucket_buckets_only (P : Platform) (name : String)
    (vm : List (String × Json)) (buck : Json) (hb : vm.lookup "buckets" = some buck) :
    (∀ vm2, vm2.lookup "buckets" = some buck →
      extractAggBucket P name (.obj vm2) = extractAggBucket P name (.obj vm)) ∧
    (∀ b, extractAggBucket P name (.obj vm) = .ok b → b.Name = name) ∧
    nextCall (.obj vm) = none ∧
    extractAggBucketFuel P 1 name (.obj vm) = some (extractAggBucket P name (.obj vm)) ∧
    ((∀ ar, buck ≠ .arr ar) → extractAggBucket P name (.obj vm) = .ok ⟨name, []⟩) := by
  refine ⟨?_, ?_, by simp [nextCall, hb], extractAggBucketFuel_one_of_buckets P name vm buck hb,
    ?_⟩
  · intro vm2 hb2
    rw [extractAggBucket_of_buckets P name vm buck hb,
      extractAggBucket_of_buckets P name vm2 buck hb2]
  · intro b h
    rw [extractAggBucket_of_buckets P name vm buck hb] at h
    cases hl : loopOf P [] buck with
    | none =>
      simp only [hl, Except.ok.injEq] at h
      rw [← h]
    | some r =>
      cases r with
      | error e => simp [hl] at h
      | ok kc =>
        simp only [hl, Except.ok.injEq] at h
        rw [← h]
  · intro hna
    rw [extractAggBucket_of_buckets P name vm buck hb]
    cases buck with
    | arr ar => exact absurd rfl (hna ar)
    | null => rfl
    | bool _ => rfl
    | num _ => rfl
    | str _ => rfl
    | obj _ => rfl

/-- C13 at a concrete input: the value {"doc_count_error_upper_bound":0,
"nested":{"buckets":[{"key":"z","doc_count":9}]},
"buckets":[{"key":"bass","doc_count":1}]} under the name "tags". -/
theorem extractAggBucket_buckets_only_witness :
    ((∀ vm2, vm2.lookup "buckets"
          = some (.arr [.obj [("key", .str "bass"), ("doc_count", .num 1)]]) →
      extractAggBucket amd64 "tags" (.obj vm2) = extractAggBucket amd64 "tags" (.obj
        [("doc_count_error_upper_bound", .num 0),
         ("nested", .obj [("buckets", .arr [.obj [("key", .str "z"), ("doc_count", .num 9)]])]),
         ("buckets", .arr [.obj [("key", .str "bass"), ("doc_count", .num 1)]])])) ∧
    (∀ b, extractAggBucket amd64 "tags" (.obj
        [("doc_count_error_upper_bound", .num 0),
         ("nested", .obj [("buckets", .arr [.obj [("key", .str "z"), ("doc_count", .num 9)]])]),
         ("buckets", .arr [.obj [("key", .str "bass"), ("doc_count", .num 1)]])]) = .ok b →
      b.Name = "tags") ∧
    nextCall (.obj
        [("doc_count_error_upper_bound", .num 0),
         ("nested", .obj [("buckets", .arr [.obj [("key", .str "z"), ("doc_count", .num 9)]])]),
         ("buckets", .arr [.obj [("key", .str "bass"), ("doc_count", .num 1)]])]) = none ∧
    extractAggBucketFuel amd64 1 "tags" (.obj
        [("doc_count_error_upper_bound", .num 0),
         ("nested", .obj [("buckets", .arr [.obj [("key", .str "z"), ("doc_count", .num 9)]])]),
         ("buckets", .arr [.obj [("key", .str "bass"), ("doc_count", .num 1)]])])
      = some (extractAggBucket amd64 "tags" (.obj
        [("doc_count_error_upper_bound", .num 0),
         ("nested", .obj [("buckets", .arr [.obj [("key", .str "z"), ("doc_count", .num 9)]])]),
         ("buckets", .arr [.obj [("key", .str "bass"), ("doc_count", .num 1)]])])) ∧
    ((∀ ar, Json.arr [.obj [("key", .str "bass"), ("doc_count", .num 1)]] ≠ .arr ar) →
      extractAggBucket amd64 "tags" (.obj
        [("doc_count_error_upper_bound", .num 0),
         ("nested", .obj [("buckets", .arr [.obj [("key", .str "z"), ("doc_count", .num 9)]])]),
         ("buckets", .arr [.obj [("key", .str "bass"), ("doc_count", .num 1)]])])
        = .ok ⟨"tags", []⟩)) ∧
    extractAggBucket amd64 "tags" (.obj
        [("doc_count_error_upper_bound", .num 0),
         ("nested", .obj [("buckets", .arr [.obj [("key", .str "z"), ("doc_count", .num 9)]])]),
         ("buckets", .arr [.obj [("key", .str "bass"), ("doc_count", .num 1)]])])
      = .ok ⟨"tags", [("bass", 1)]⟩ :=
  ⟨extractAggBucket_buckets_only amd64 "tags"
      [("doc_count_error_upper_bound", .num 0),
       ("nested", .obj [("buckets", .arr [.obj [("key", .str "z"), ("doc_count", .num 9)]])]),
       ("buckets", .arr [.obj [("key", .str "bass"), ("doc_count", .num 1)]])]
      (.arr [.obj [("key", .str "bass"), ("doc_count", .num 1)]]) (by simp [List.lookup]),
    by simp [extractAggBucket, rangeAr, storeBucket, List.lookup, KeyCount.set,
      KeyCount.erase, intOfFloat64, truncToZero, Platform.fits, amd64]⟩

/-! ## C14 -/

theorem storeBucket_skipped (P : Platform) (kc : KeyCount) (e : Json)
    (h : isSkipped e = true) : storeBucket P kc e = .ok kc := by
  cases e with
  | obj f =>
    simp only [isSkipped, Bool.or_eq_true, Option.isNone_iff_eq_none] at h
    rcases h with h | h
    · simp [storeBucket, h]
    · cases hk : f.lookup "key" with
      | none => simp [storeBucket, hk]
      | some k => simp [storeBucket, hk, h]
  | null => rfl
  | bool _ => rfl
  | num _ => rfl
  | str _ => rfl
  | arr _ => rfl

theorem rangeAr_filter_skipped (P : Platform) (ar : List Json) (kc : KeyCount) :
    rangeAr P kc (ar.filter (fun e => !isSkipped e)) = rangeAr P kc ar := by
  induction ar generalizing kc with
  | nil => rfl
  | cons x xs ih =>
    cases hx : isSkipped x with
    | true =>
      simp only [List.filter_cons, hx, Bool.not_true, Bool.false_eq_true, if_false, rangeAr,
        storeBucket_skipped P kc x hx]
      exact ih kc
    | false =>
      simp only [List.filter_cons, hx, Bool.not_false, if_true, rangeAr]
      cases storeBucket P kc x with
      | error e => rfl
      | ok kc1 => exact ih kc1

/-- C14: for every name and every "buckets" array, the elements that are not
objects and the object elements that lack "key" or lack "doc_count" contribute
nothing: they leave the map as it is without panic, extractAggBucket gives
the same outcome for the array and for the array with those elements removed,
and an array of such elements only gives the empty bucket. -/
theorem extractAggBucket_skips (P : Platform) (name : String)
    (vm vm2 : List (String × Json)) (ar : List Json)
    (hb : vm.lookup "buckets" = some (.arr ar))
    (hb2 : vm2.lookup "buckets" = some (.arr (ar.filter (fun e => !isSkipped e)))) :
    extractAggBucket P name (.obj vm) = extractAggBucket P name (.obj vm2) ∧
    (∀ e ∈ ar, isSkipped e = true → ∀ kc, storeBucket P kc e = .ok kc) ∧
    ((∀ e ∈ ar, isSkipped e = true) → extractAggBucket P name (.obj vm) = .ok ⟨name, []⟩) := by
  refine ⟨?_, ?_, ?_⟩
  · rw [extractAggBucket_buckets_arr P name vm ar hb,
      extractAggBucket_buckets_arr P name vm2 _ hb2, rangeAr_filter_skipped]
  · intro e _ he kc
    exact storeBucket_skipped P kc e he
  · intro hall
    have hnil : ar.filter (fun e => !isSkipped e) = [] := by
      rw [List.filter_eq_nil_iff]
      intro e he
      simp [hall e he]
    rw [extractAggBucket_buckets_arr P name vm ar hb, ← rangeAr_filter_skipped, hnil]
    rfl

/-- C14 at a concrete input: in [7, {"doc_count":3}, {"key":"solo"},
{"key":"bass","doc_count":1}] the first three elements are passed over;
the result is that of [{"key":"bass","doc_count":1}], the bucket {bass:1}. -/
theorem extractAggBucket_skips_witness :
    (extractAggBucket amd64 "tags" (.obj [("buckets", .arr
        [.num 7, .obj [("doc_count", .num 3)], .obj [("key", .str "solo")],
         .obj [("key", .str "bass"), ("doc_count", .num 1)]])])
      = extractAggBucket amd64 "tags" (.obj [("buckets", .arr
        [.obj [("key", .str "bass"), ("doc_count", .num 1)]])]) ∧
    (∀ e ∈ [Json.num 7, .obj [("doc_count", .num 3)], .obj [("key", .str "solo")],
         .obj [("key", .str "bass"), ("doc_count", .num 1)]],
      isSkipped e = true → ∀ kc, storeBucket amd64 kc e = .ok kc) ∧
    ((∀ e ∈ [Json.num 7, .obj [("doc_count", .num 3)], .obj [("key", .str "solo")],
         .obj [("key", .str "bass"), ("doc_count", .num 1)]], isSkipped e = true) →
      extractAggBucket amd64 "tags" (.obj [("buckets", .arr
        [.num 7, .obj [("doc_count", .num 3)], .obj [("key", .str "solo")],
         .obj [("key", .str "bass"), ("doc_count", .num 1)]])]) = .ok ⟨"tags", []⟩)) ∧
    extractAggBucket amd64 "tags" (.obj [("buckets", .arr
        [.num 7, .obj [("doc_count", .num 3)], .obj [("key", .str "solo")],
         .obj [("key", .str "bass"), ("doc_count", .num 1)]])])
      = .ok ⟨"tags", [("bass", 1)]⟩ :=
  ⟨extractAggBucket_skips amd64 "tags" _ _
      [.num 7, .obj [("doc_count", .num 3)], .obj [("key", .str "solo")],
        .obj [("key", .str "bass"), ("doc_count", .num 1)]]
      (by simp [List.lookup]) (by simp [List.lookup, isSkipped]),
    by simp [extractAggBucket, rangeAr, storeBucket, List.lookup, KeyCount.set,
      KeyCount.erase, intOfFloat64, truncToZero, Platform.fits, amd64]⟩

/-! ## C15 -/

/-- C15: for every name and every value that is not a JSON object,
extractAggBucket(name, value) returns the bucket with Name name and an empty
KeyCount. -/
theorem extractAggBucket_non_object (P : Platform) (name : String) (v : Json)
    (h : ∀ vm, v ≠ .obj vm) : extractAggBucket P name v = .ok ⟨name, []⟩ := by
  cases v with
  | obj vm => exact absurd rfl (h vm)
  | null => rfl
  | bool _ => rfl
  | num _ => rfl
  | str _ => rfl
  | arr _ => rfl

/-- C15 at concrete inputs: a string, a number, a boolean, null and an array
all give the empty bucket named "tags". -/
theorem extractAggBucket_non_object_witness :
    extractAggBucket amd64 "tags" (.str "bass") = .ok ⟨"tags", []⟩ ∧
    extractAggBucket amd64 "tags" (.num 3) = .ok ⟨"tags", []⟩ ∧
    extractAggBucket amd64 "tags" (.bool true) = .ok ⟨"tags", []⟩ ∧
    extractAggBucket amd64 "tags" .null = .ok ⟨"tags", []⟩ ∧
    extractAggBucket amd64 "tags"
        (.arr [.obj [("buckets", .arr [.obj [("key", .str "bass"), ("doc_count", .num 1)]])]])
      = .ok ⟨"tags", []⟩ :=
  ⟨extractAggBucket_non_object amd64 "tags" _ (fun _ h => Json.noConfusion h),
    extractAggBucket_non_object amd64 "tags" _ (fun _ h => Json.noConfusion h),
    extractAggBucket_non_object amd64 "tags" _ (fun _ h => Json.noConfusion h),
    extractAggBucket_non_object amd64 "tags" _ (fun _ h => Json.noConfusion h),
    extractAggBucket_non_object amd64 "tags" _ (fun _ h => Json.noConfusion h)⟩

/-! ## C16 -/

theorem lookup_none_of_keys {β : Type} (l : List (String × β)) (key other : String)
    (hne : other ≠ key) (h : ∀ p ∈ l, p.1 = other) : l.lookup key = none := by
  induction l with
  | nil => rfl
  | cons p l ih =>
    obtain ⟨a, b⟩ := p
    have ha : a = other := h (a, b) (List.mem_cons_self _ _)
    have hk : key ≠ a := by rw [ha]; exact fun e => hne e.symm
    rw [lookup_cons_ne hk]
    exact ih (fun p hp => h p (List.mem_cons_of_mem _ hp))

theorem firstInner_none_of_all (vm : List (String × Json))
    (h : ∀ p ∈ vm, p.1 = "doc_count") : firstInner vm = none := by
  induction vm with
  | nil => rfl
  | cons p vm ih =>
    obtain ⟨a, b⟩ := p
    have ha : a = "doc_count" := h (a, b) (List.mem_cons_self _ _)
    simp only [firstInner, ha, if_true]
    exact ih (fun p hp => h p (List.mem_cons_of_mem _ hp))

/-- C16: for every name and every object value that is empty or whose only key
is "doc_count", extractAggBucket(name, value) returns the bucket with Name name
and an empty KeyCount, without recursing: no recursive call is made, and the
budget of one call suffices. -/
theorem extractAggBucket_only_doc_count (P : Platform) (name : String)
    (vm : List (String × Json)) (h : ∀ p ∈ vm, p.1 = "doc_count") :
    extractAggBucket P name (.obj vm) = .ok ⟨name, []⟩ ∧
    nextCall (.obj vm) = none ∧
    extractAggBucketFuel P 1 name (.obj vm) = some (.ok ⟨name, []⟩) := by
  have hb : vm.lookup "buckets" = none :=
    lookup_none_of_keys vm "buckets" "doc_count" (by decide) h
  have hf : firstInner vm = none := firstInner_none_of_all vm h
  refine ⟨?_, ?_, ?_⟩
  · rw [extractAggBucket, hb]
    simp only
    rw [rangeVm_eq_firstInner, hf]
  · simp [nextCall, hb, hf]
  · simp [extractAggBucketFuel, hb, hf]

/-- C16 at concrete inputs: the empty object and {"doc_count":5} under the name
"tags". -/
theorem extractAggBucket_only_doc_count_witness :
    (extractAggBucket amd64 "tags" (.obj []) = .ok ⟨"tags", []⟩ ∧
      nextCall (.obj []) = none ∧
      extractAggBucketFuel amd64 1 "tags" (.obj []) = some (.ok ⟨"tags", []⟩)) ∧
    (extractAggBucket amd64 "tags" (.obj [("doc_count", .num 5)]) = .ok ⟨"tags", []⟩ ∧
      nextCall (.obj [("doc_count", .num 5)]) = none ∧
      extractAggBucketFuel amd64 1 "tags" (.obj [("doc_count", .num 5)])
        = some (.ok ⟨"tags", []⟩)) :=
  ⟨extractAggBucket_only_doc_count amd64 "tags" [] (by simp),
    extractAggBucket_only_doc_count amd64 "tags" [("doc_count", .num 5)] (by simp)⟩

/-! ## C17 -/

theorem KeyCount.not_mem_keys_erase (m : KeyCount) (k : String) :
    k ∉ (m.erase k).map Prod.fst := by
  induction m with
  | nil => simp [KeyCount.erase]
  | cons p m ih =>
    obtain ⟨a, b⟩ := p
    by_cases hak : a = k
    · simpa [KeyCount.erase, hak] using ih
    · simp only [KeyCount.erase, hak, if_false, List.map_cons, List.mem_cons, not_or]
      exact ⟨fun e => hak e.symm, ih⟩

theorem KeyCount.mem_keys_erase (m : KeyCount) (k a : String)
    (h : a ∈ (m.erase k).map Prod.fst) : a ∈ m.map Prod.fst := by
  obtain ⟨p, hp, rfl⟩ := List.mem_map.mp h
  exact List.mem_map_of_mem Prod.fst (KeyCount.mem_erase m k p hp)

theorem KeyCount.nodup_erase (m : KeyCount) (k : String) (h : (m.map Prod.fst).Nodup) :
    ((m.erase k).map Prod.fst).Nodup := by
  induction m with
  | nil => simp [KeyCount.erase]
  | cons p m ih =>
    obtain ⟨a, b⟩ := p
    simp only [List.map_cons, List.nodup_cons] at h
    by_cases hak : a = k
    · simpa [KeyCount.erase, hak] using ih h.2
    · simp only [KeyCount.erase, hak, if_false, List.map_cons, List.nodup_cons]
      exact ⟨fun hm => h.1 (KeyCount.mem_keys_erase m k a hm), ih h.2⟩

theorem KeyCount.length_erase_le (m : KeyCount) (k : String) :
    (m.erase k).length ≤ m.length := by
  induction m with
  | nil => simp [KeyCount.erase]
  | cons p m ih =>
    obtain ⟨a, b⟩ := p
    by_cases hak : a = k
    · simp only [KeyCount.erase, hak, if_true, List.length_cons]
      omega
    · simp only [KeyCount.erase, hak, if_false, List.length_cons]
      omega

/-- An assignment keeps the keys of the map distinct and adds at most one
entry. -/
theorem KeyCount.set_inv (m : KeyCount) (k : String) (v : Int)
    (h : (m.map Prod.fst).Nodup) :
    ((m.set k v).map Prod.fst).Nodup ∧ (m.set k v).length ≤ m.length + 1 := by
  constructor
  · simp only [KeyCount.set, List.map_cons, List.nodup_cons]
    exact ⟨KeyCount.not_mem_keys_erase m k, KeyCount.nodup_erase m k h⟩
  · simp only [KeyCount.set, List.length_cons]
    have := KeyCount.length_erase_le m k
    omega

theorem storeBucket_inv (P : Platform) (kc kc1 : KeyCount) (e : Json)
    (h : storeBucket P kc e = .ok kc1) (hnd : (kc.map Prod.fst).Nodup) :
    (kc1.map Prod.fst).Nodup ∧ kc1.length ≤ kc.length + 1 := by
  cases e with
  | obj f =>
    rw [storeBucket_obj_view] at h
    split at h
    · simp only [Except.ok.injEq] at h
      subst h
      exact KeyCount.set_inv kc _ _ hnd
    · simp at h
    · simp at h
    · simp only [Except.ok.injEq] at h
      subst h
      exact ⟨hnd, Nat.le_succ _⟩
  | null => simp only [storeBucket, Except.ok.injEq] at h; subst h; exact ⟨hnd, Nat.le_succ _⟩
  | bool _ => simp only [storeBucket, Except.ok.injEq] at h; subst h; exact ⟨hnd, Nat.le_succ _⟩
  | num _ => simp only [storeBucket, Except.ok.injEq] at h; subst h; exact ⟨hnd, Nat.le_succ _⟩
  | str _ => simp only [storeBucket, Except.ok.injEq] at h; subst h; exact ⟨hnd, Nat.le_succ _⟩
  | arr _ => simp only [storeBucket, Except.ok.injEq] at h; subst h; exact ⟨hnd, Nat.le_succ _⟩

/-- The loop over the array keeps the keys of the map distinct and adds at most
one entry for each element. -/
theorem rangeAr_inv (P : Platform) (xs : List Json) (kc kc1 : KeyCount)
    (h : rangeAr P kc xs = .ok kc1) (hnd : (kc.map Prod.fst).Nodup) :
    (kc1.map Prod.fst).Nodup ∧ kc1.length ≤ kc.length + xs.length := by
  induction xs generalizing kc with
  | nil =>
    simp only [rangeAr, Except.ok.injEq] at h
    subst h
    exact ⟨hnd, Nat.le_refl _⟩
  | cons x xs ih =>
    simp only [rangeAr] at h
    cases hs : storeBucket P kc x with
    | error e => simp [hs] at h
    | ok kc2 =>
      simp only [hs] at h
      obtain ⟨hnd2, hlen2⟩ := storeBucket_inv P kc kc2 x hs hnd
      obtain ⟨hnd1, hlen1⟩ := ih kc2 h hnd2
      refine ⟨hnd1, ?_⟩
      simp only [List.length_cons]
      omega

/-- C17: when every element of the "buckets" array is well-typed or passed
over, extractAggBucket returns a bucket whose KeyCount has a single entry for
each key (the keys are pairwise distinct), so no more entries than the array has
elements, and the count of a key is int(doc_count) of the last element with
that key in array order: later elements overwrite earlier ones. -/
theorem extractAggBucket_last_wins (P : Platform) (name : String)
    (vm : List (String × Json)) (ar : List Json)
    (hb : vm.lookup "buckets" = some (.arr ar))
    (htol : ∀ e ∈ ar, Tolerated e) :
    ∃ b, extractAggBucket P name (.obj vm) = .ok b ∧
      (b.KeyCount.map Prod.fst).Nodup ∧ b.KeyCount.length ≤ ar.length ∧
      ∀ pre mkdc post s d, ar = pre ++ .obj mkdc :: post → IsEntry mkdc (s, d) →
        (∀ e ∈ post, NotKeyed s e) → b.KeyCount.lookup s = some (intOfFloat64 P d) := by
  obtain ⟨kc1, h1, _⟩ := rangeAr_tolerated P ar [] htol
  obtain ⟨hnd, hlen⟩ := rangeAr_inv P ar [] kc1 h1 (by simp)
  refine ⟨⟨name, kc1⟩, ?_, hnd, by simpa using hlen, ?_⟩
  · rw [extractAggBucket_buckets_arr P name vm ar hb, h1]
  · intro pre mkdc post s d har hent hpost
    subst har
    obtain ⟨kc0, h0, _⟩ := rangeAr_tolerated P pre []
      (fun e he => htol e (List.mem_append_left _ he))
    obtain ⟨kc2, h2, hl2⟩ := rangeAr_tolerated P post (kc0.set s (intOfFloat64 P d))
      (fun e he => htol e (List.mem_append_right _ (List.mem_cons_of_mem _ he)))
    have h3 : rangeAr P [] (pre ++ .obj mkdc :: post) = .ok kc2 := by
      rw [rangeAr_append, h0]
      simp only [rangeAr, storeBucket, hent.1, hent.2, h2]
    rw [h1] at h3
    simp only [Except.ok.injEq] at h3
    subst h3
    simp only
    rw [hl2 s hpost, KeyCount.lookup_set]
    simp

theorem tolerated_of_entry (f : List (String × Json)) (p : String × ℚ) (h : IsEntry f p) :
    Tolerated (.obj f) := by
  intro f2 k c he hk hc
  simp only [Json.obj.injEq] at he
  subst he
  rw [h.1] at hk
  rw [h.2] at hc
  simp only [Option.some.injEq] at hk hc
  exact ⟨⟨p.1, hk.symm⟩, ⟨p.2, hc.symm⟩⟩

/-- C17 at a concrete input: in [{"key":"bass","doc_count":1},
{"key":"drum","doc_count":4},{"key":"bass","doc_count":7}] the key "bass"
occurs twice; the bucket has the two entries bass:7 and drum:4. -/
theorem extractAggBucket_last_wins_witness :
    (∃ b, extractAggBucket amd64 "tags" (.obj [("buckets", .arr
        [.obj [("key", .str "bass"), ("doc_count", .num 1)],
         .obj [("key", .str "drum"), ("doc_count", .num 4)],
         .obj [("key", .str "bass"), ("doc_count", .num 7)]])]) = .ok b ∧
      (b.KeyCount.map Prod.fst).Nodup ∧
      b.KeyCount.length ≤ [Json.obj [("key", .str "bass"), ("doc_count", .num 1)],
         .obj [("key", .str "drum"), ("doc_count", .num 4)],
         .obj [("key", .str "bass"), ("doc_count", .num 7)]].length ∧
      ∀ pre mkdc post s d,
        [Json.obj [("key", .str "bass"), ("doc_count", .num 1)],
         .obj [("key", .str "drum"), ("doc_count", .num 4)],
         .obj [("key", .str "bass"), ("doc_count", .num 7)]] = pre ++ .obj mkdc :: post →
        IsEntry mkdc (s, d) → (∀ e ∈ post, NotKeyed s e) →
        b.KeyCount.lookup s = some (intOfFloat64 amd64 d)) ∧
    extractAggBucket amd64 "tags" (.obj [("buckets", .arr
        [.obj [("key", .str "bass"), ("doc_count", .num 1)],
         .obj [("key", .str "drum"), ("doc_count", .num 4)],
         .obj [("key", .str "bass"), ("doc_count", .num 7)]])])
      = .ok ⟨"tags", [("bass", 7), ("drum", 4)]⟩ :=
  ⟨extractAggBucket_last_wins amd64 "tags" _
      [.obj [("key", .str "bass"), ("doc_count", .num 1)],
       .obj [("key", .str "drum"), ("doc_count", .num 4)],
       .obj [("key", .str "bass"), ("doc_count", .num 7)]]
      (by simp [List.lookup])
      (by
        intro e he
        simp only [List.mem_cons, List.mem_singleton, List.not_mem_nil, or_false] at he
        rcases he with rfl | rfl | rfl
        · exact tolerated_of_entry _ ("bass", 1) ⟨by simp [List.lookup], by simp [List.lookup]⟩
        · exact tolerated_of_entry _ ("drum", 4) ⟨by simp [List.lookup], by simp [List.lookup]⟩
        · exact tolerated_of_entry _ ("bass", 7) ⟨by simp [List.lookup], by simp [List.lookup]⟩),
    by simp [extractAggBucket, rangeAr, storeBucket, List.lookup, KeyCount.set,
      KeyCount.erase, intOfFloat64, truncToZero, Platform.fits, amd64]⟩

end Elastigo
